import Mathlib

/-!
Verification of the content-annotation engine of the haslan-xyz site
(`src/assets/js/script.js`).  Strings are modelled as `List Char`; the
DOM is modelled as a tree of elements and text nodes.  Each definition
carries a comment naming the source function it embeds.
-/

set_option maxHeartbeats 1000000
set_option maxRecDepth 100000

/-- JS whitespace as used by `String.prototype.trim` (restricted to the
ASCII whitespace characters that occur in the repository's content). -/
def jsSpace (c : Char) : Bool :=
  c = ' ' || c = '\t' || c = '\n' || c = '\r' || c = '\x0b' || c = '\x0c'

/-- `String.prototype.trim`: drop whitespace from both ends. -/
def jsTrim (s : List Char) : List Char :=
  ((s.dropWhile jsSpace).reverse.dropWhile jsSpace).reverse

/-- Word character in the sense of the JS regex class `\w` = `[A-Za-z0-9_]`,
which also determines `\b` word boundaries. -/
def wordC (c : Char) : Bool :=
  ('a' ≤ c && c ≤ 'z') || ('A' ≤ c && c ≤ 'Z') || ('0' ≤ c && c ≤ '9') || c = '_'

/-- ASCII letter, the regex class `[A-Za-z]` used by `applyDropcaps`. -/
def asciiLetter (c : Char) : Bool :=
  ('a' ≤ c && c ≤ 'z') || ('A' ≤ c && c ≤ 'Z')

/-- Preview truncation from `AutoEnhance.loadDefinitions`
(script.js:206-208): `if (preview.length > 150) preview =
preview.substring(0, 147) + '...'`. -/
def truncatePreview (preview : List Char) : List Char :=
  if preview.length > 150 then preview.take 147 ++ "...".data else preview

/-- A glossary term as stored in `AutoEnhance.definitions`
(script.js:210-214). -/
structure Term where
  term : List Char
  slug : List Char
  preview : List Char
deriving Repr, DecidableEq

/-- One `.definition-entry` block of the glossary document, as observed by
`loadDefinitions` (script.js:198-202): the text content of the
`.definition-term` element (if present), the text content of the
`.definition-content p` element (if present), and the `id` attribute
(if present; `getAttribute` yields the raw string, possibly empty). -/
structure GlossaryEntry where
  termEl : Option (List Char)
  contentEl : Option (List Char)
  id : Option (List Char)
deriving Repr, DecidableEq

/-- The truthiness test `if (termEl && contentEl && id)` of
script.js:203: an empty `id` string is falsy in JS. -/
def entryWellFormed (e : GlossaryEntry) : Bool :=
  e.termEl.isSome && e.contentEl.isSome &&
    (match e.id with | some l => !l.isEmpty | none => false)

/-- `Char.toLower`-based lower-casing of a term key
(`term.toLowerCase()`, script.js:210; the repository's terms are ASCII). -/
def lowerKey (s : List Char) : List Char := s.map Char.toLower

/-- The `Term` built from a well-formed entry (script.js:204-214). -/
def entryTerm (e : GlossaryEntry) : Option ((List Char) × Term) :=
  if entryWellFormed e then
    match e.termEl, e.contentEl, e.id with
    | some t, some c, some i =>
        let term := jsTrim t
        let preview := truncatePreview (jsTrim c)
        some (lowerKey term, ⟨term, i, preview⟩)
    | _, _, _ => none
  else none

/-- JS object key assignment `this.definitions[key] = v`: if the key is
already present its value is overwritten in place (preserving first-insertion
iteration order), otherwise the binding is appended. -/
def upsert (key : List Char) (v : Term) :
    List ((List Char) × Term) → List ((List Char) × Term)
  | [] => [(key, v)]
  | (k, w) :: rest =>
      if k = key then (k, v) :: rest else (k, w) :: upsert key v rest

/-- `AutoEnhance.loadDefinitions` (script.js:198-216) restricted to its
pure part: fold the glossary entries in document order into the
definitions mapping, skipping malformed entries. -/
def loadDefinitions (entries : List GlossaryEntry) :
    List ((List Char) × Term) :=
  entries.foldl
    (fun acc e =>
      match entryTerm e with
      | some (k, v) => upsert k v acc
      | none => acc)
    []

/-- Association lookup in the definitions mapping. -/
def findKey (key : List Char) :
    List ((List Char) × Term) → Option Term
  | [] => none
  | (k, v) :: rest => if k = key then some v else findKey key rest

-- ======================= C4 =======================

/-- **C4** (confirmed).  For every definition body string of length `L`:
if `L > 150` the stored preview has exactly 150 characters, namely the
first 147 characters of the body followed by the 3-character ellipsis;
if `L ≤ 150` the preview equals the body unchanged. -/
theorem c4_theorem (p : List Char) :
    (150 < p.length →
      (truncatePreview p).length = 150 ∧
        truncatePreview p = p.take 147 ++ "...".data) ∧
    (p.length ≤ 150 → truncatePreview p = p) := by
  constructor
  · intro h
    have hlen : (p.take 147).length = 147 := by
      simp [List.length_take]
      omega
    constructor
    · simp only [truncatePreview, if_pos (by omega : p.length > 150)]
      simp [hlen]
    · simp only [truncatePreview, if_pos (by omega : p.length > 150)]
  · intro h
    simp only [truncatePreview]
    have : ¬ p.length > 150 := by omega
    simp [this]

/-- Witness for C4 at a concrete long body and a concrete short body. -/
theorem c4_witness :
    (truncatePreview (List.replicate 151 'x')).length = 150 ∧
      truncatePreview ['a', 'b'] = ['a', 'b'] := by
  refine ⟨((c4_theorem (List.replicate 151 'x')).1 (by simp)).1, ?_⟩
  have h2 := c4_theorem ['a', 'b']
  exact h2.2 (by simp)

-- ======================= C5 =======================

theorem getLast?_cons_eq {α : Type} (a : α) (l : List α) :
    (a :: l).getLast? =
      some (match l.getLast? with | some x => x | none => a) := by
  induction l generalizing a with
  | nil => rfl
  | cons b m ih =>
      rw [List.getLast?_cons_cons, ih b]

theorem findKey_upsert_self (k : List Char) (v : Term)
    (l : List ((List Char) × Term)) : findKey k (upsert k v l) = some v := by
  induction l with
  | nil => simp [upsert, findKey]
  | cons p rest ih =>
      rcases p with ⟨k1, w1⟩
      by_cases h : k1 = k
      · simp [upsert, findKey, h]
      · simp [upsert, findKey, h, ih]

theorem findKey_upsert_ne (k k' : List Char) (v : Term)
    (l : List ((List Char) × Term)) (h : k ≠ k') :
    findKey k (upsert k' v l) = findKey k l := by
  induction l with
  | nil => simp [upsert, findKey, Ne.symm h]
  | cons p rest ih =>
      rcases p with ⟨k1, w1⟩
      by_cases h1 : k1 = k'
      · subst h1
        simp [upsert, findKey, Ne.symm h]
      · by_cases h2 : k1 = k
        · simp [upsert, findKey, h1, h2, h]
        · simp [upsert, findKey, h1, h2, ih]

theorem upsert_length (k : List Char) (v : Term)
    (l : List ((List Char) × Term)) :
    (upsert k v l).length ≤ l.length + 1 := by
  induction l with
  | nil => simp [upsert]
  | cons p rest ih =>
      rcases p with ⟨k1, w1⟩
      by_cases h : k1 = k
      · simp [upsert, h]
      · simp only [upsert, h, if_false, List.length_cons]
        omega

theorem upsert_forall (k : List Char) (v : Term)
    (l : List ((List Char) × Term)) (P : (List Char) × Term → Prop)
    (hl : ∀ p ∈ l, P p) (hv : P (k, v)) :
    ∀ p ∈ upsert k v l, P p := by
  induction l with
  | nil => simpa [upsert] using hv
  | cons q rest ih =>
      rcases q with ⟨k1, w1⟩
      by_cases h : k1 = k
      · subst h
        intro p hp
        simp only [upsert, if_pos rfl] at hp
        rcases List.mem_cons.mp hp with hp | hp
        · subst hp; exact hv
        · exact hl p (List.mem_cons_of_mem _ hp)
      · intro p hp
        simp only [upsert, h, if_false] at hp
        rcases List.mem_cons.mp hp with hp | hp
        · exact hl p (by simp [hp])
        · exact ih (fun r hr => hl r (List.mem_cons_of_mem _ hr)) p hp

theorem entryTerm_isSome (e : GlossaryEntry) :
    (entryTerm e).isSome = entryWellFormed e := by
  rcases e with ⟨t, c, i⟩
  rcases t with _ | t <;> rcases c with _ | c <;> rcases i with _ | i <;>
    simp [entryTerm, entryWellFormed]
  by_cases h : i = [] <;> simp [h]

theorem entryTerm_eq_none (e : GlossaryEntry)
    (hwf : entryWellFormed e = false) : entryTerm e = none := by
  simp [entryTerm, hwf]

/-- The loader's fold step (script.js:198-216). -/
def loadStep (acc : List ((List Char) × Term)) (e : GlossaryEntry) :
    List ((List Char) × Term) :=
  match entryTerm e with
  | some (k, v) => upsert k v acc
  | none => acc

theorem loadDefinitions_eq_foldl (entries : List GlossaryEntry) :
    loadDefinitions entries = entries.foldl loadStep [] := rfl

theorem loadStep_length (acc : List ((List Char) × Term))
    (e : GlossaryEntry) :
    (loadStep acc e).length ≤
      acc.length + (if entryWellFormed e then 1 else 0) := by
  unfold loadStep
  rcases he : entryTerm e with _ | ⟨k, v⟩
  · simp
  · have : entryWellFormed e = true := by
      rw [← entryTerm_isSome, he]; rfl
    simp only [this, if_pos rfl]
    exact upsert_length k v acc

theorem load_aux_length (entries : List GlossaryEntry)
    (acc : List ((List Char) × Term)) :
    (entries.foldl loadStep acc).length ≤
      acc.length + (entries.filter (fun e => entryWellFormed e)).length := by
  induction entries generalizing acc with
  | nil => simp
  | cons e rest ih =>
      simp only [List.foldl_cons]
      by_cases hwf : entryWellFormed e
      · have h1 := ih (loadStep acc e)
        have h2 := loadStep_length acc e
        simp [hwf] at h2
        simp [List.filter_cons, hwf]
        omega
      · have hb : entryWellFormed e = false := Bool.eq_false_iff.mpr hwf
        have hstep : loadStep acc e = acc := by
          simp [loadStep, entryTerm_eq_none e hb]
        rw [hstep]
        have h1 := ih acc
        simp only [List.filter_cons]
        rw [if_neg hwf]
        exact h1

theorem load_aux_skip (entries : List GlossaryEntry)
    (acc : List ((List Char) × Term)) :
    entries.foldl loadStep acc =
      (entries.filter (fun e => entryWellFormed e)).foldl loadStep acc := by
  induction entries generalizing acc with
  | nil => simp
  | cons e rest ih =>
      by_cases hwf : entryWellFormed e
      · simp only [List.filter_cons, hwf, if_pos rfl, List.foldl_cons]
        exact ih _
      · have hb : entryWellFormed e = false := Bool.eq_false_iff.mpr hwf
        have hterm : entryTerm e = none := entryTerm_eq_none e hb
        simp only [List.filter_cons, List.foldl_cons, loadStep, hterm]
        rw [if_neg hwf]
        exact ih acc

theorem load_aux_keys (entries : List GlossaryEntry)
    (acc : List ((List Char) × Term))
    (hacc : ∀ p ∈ acc, p.1 = lowerKey p.2.term) :
    ∀ p ∈ entries.foldl loadStep acc, p.1 = lowerKey p.2.term := by
  induction entries generalizing acc with
  | nil => intro p hp; exact hacc p (by simpa using hp)
  | cons e rest ih =>
      simp only [List.foldl_cons]
      apply ih
      unfold loadStep
      rcases he : entryTerm e with _ | ⟨k, v⟩
      · exact hacc
      · apply upsert_forall _ _ _ _ hacc
        rcases e with ⟨t, c, i⟩
        rcases t with _ | t
        · simp [entryTerm, entryWellFormed] at he
        · rcases c with _ | c
          · simp [entryTerm, entryWellFormed] at he
          · rcases i with _ | i
            · simp [entryTerm, entryWellFormed] at he
            · by_cases hwf : entryWellFormed ⟨some t, some c, some i⟩
              · simp only [entryTerm, if_pos hwf] at he
                have h := Option.some.inj he
                rw [Prod.mk.injEq] at h
                obtain ⟨h1, h2⟩ := h
                subst h1; subst h2
                rfl
              · rw [entryTerm_eq_none _ (Bool.eq_false_iff.mpr hwf)] at he
                cases he

theorem load_aux_find (entries : List GlossaryEntry)
    (acc : List ((List Char) × Term)) (k : List Char) :
    findKey k (entries.foldl loadStep acc) =
      (match ((entries.filterMap entryTerm).filter
          (fun p => p.1 = k)).getLast? with
       | some p => some p.2
       | none => findKey k acc) := by
  induction entries generalizing acc with
  | nil => simp
  | cons e rest ih =>
      simp only [List.foldl_cons, List.filterMap_cons]
      rcases he : entryTerm e with _ | ⟨k', v⟩
      · simpa [loadStep, he] using ih acc
      · simp only [loadStep, he]
        by_cases hk : k' = k
        · subst hk
          rw [ih]
          simp only [List.filter_cons]
          rw [if_pos (by simp), getLast?_cons_eq]
          rcases hL : ((rest.filterMap entryTerm).filter
              (fun p => p.1 = k')).getLast? with _ | p
          · simp only [hL, findKey_upsert_self]
          · simp only [hL]
        · have hd : (decide ((k', v).1 = k)) = false := by
            simpa using hk
          simp only [List.filter_cons, hd]
          rw [if_neg Bool.false_ne_true, ih]
          rcases hL : ((rest.filterMap entryTerm).filter
              (fun p => p.1 = k)).getLast? with _ | p
          · simp only [hL]
            exact findKey_upsert_ne k k' v acc (fun hh => hk hh.symm)
          · simp only [hL]

/-- **C5** (confirmed).  Registry construction from a glossary document
with well-formed and malformed entries: the mapping has size at most the
number of well-formed entries, malformed entries are skipped without
aborting the load, keys are the lower-cased term names, and for a
duplicated lower-cased key the mapping holds exactly one Term — the one
from the later entry in document order (the last matching well-formed
entry). -/
theorem c5_theorem (entries : List GlossaryEntry) (k : List Char) :
    (loadDefinitions entries).length ≤
        (entries.filter (fun e => entryWellFormed e)).length ∧
    loadDefinitions entries =
        loadDefinitions (entries.filter (fun e => entryWellFormed e)) ∧
    (∀ p ∈ loadDefinitions entries, p.1 = lowerKey p.2.term) ∧
    findKey k (loadDefinitions entries) =
      (match ((entries.filterMap entryTerm).filter
          (fun p => p.1 = k)).getLast? with
       | some p => some p.2
       | none => none) := by
  refine ⟨?_, ?_, ?_, ?_⟩
  · simpa using load_aux_length entries []
  · exact load_aux_skip entries []
  · exact load_aux_keys entries [] (by intro p hp; cases hp)
  · rw [loadDefinitions_eq_foldl, load_aux_find entries [] k]
    rfl

/-- Witness for C5: a glossary with one well-formed entry for `Aslan`, a
malformed entry (no id), and a later well-formed entry with the same
lower-cased key; the registry holds the later entry's Term and has one
binding from two well-formed entries. -/
theorem c5_witness :
    findKey "aslan".data (loadDefinitions
      [⟨some "Aslan".data, some "first body".data, some "a1".data⟩,
       ⟨some "Ghost".data, some "no id".data, none⟩,
       ⟨some "ASLAN".data, some "second body".data, some "a2".data⟩]) =
      some ⟨"ASLAN".data, "a2".data, "second body".data⟩ ∧
    (loadDefinitions
      [⟨some "Aslan".data, some "first body".data, some "a1".data⟩,
       ⟨some "Ghost".data, some "no id".data, none⟩,
       ⟨some "ASLAN".data, some "second body".data, some "a2".data⟩]).length ≤ 2 := by
  constructor
  · rw [(c5_theorem
      [⟨some "Aslan".data, some "first body".data, some "a1".data⟩,
       ⟨some "Ghost".data, some "no id".data, none⟩,
       ⟨some "ASLAN".data, some "second body".data, some "a2".data⟩]
      "aslan".data).2.2.2]
    decide
  · have h := (c5_theorem
      [⟨some "Aslan".data, some "first body".data, some "a1".data⟩,
       ⟨some "Ghost".data, some "no id".data, none⟩,
       ⟨some "ASLAN".data, some "second body".data, some "a2".data⟩]
      "aslan".data).1
    have h2 : (List.filter (fun e => entryWellFormed e)
      [⟨some "Aslan".data, some "first body".data, some "a1".data⟩,
       ⟨some "Ghost".data, some "no id".data, none⟩,
       ⟨some "ASLAN".data, some "second body".data, some "a2".data⟩]).length = 2 := by
      decide
    omega

-- ============ The annotator: string-level replacement ============

/-- Word-ness of an optional character; out-of-range positions count as
non-word for `\b`. -/
def wOpt : Option Char → Bool
  | some c => wordC c
  | none => false

/-- Whether the regex `\b(TERM)\b` (with the term taken literally, as
`escapeRegex` guarantees, script.js:292,310-312) matches at the current
position of the subject string.  `w` is the word-ness of the preceding
character. -/
def matchHere (w : Bool) (t s : List Char) : Bool :=
  !t.isEmpty && t.isPrefixOf s && (w != wOpt t.head?) &&
    (wOpt t.getLast? != wOpt (s.drop t.length).head?)

/-- One piece of the left-to-right greedy match decomposition of a text:
either a literal character outside every match, or one whole-word match
of the term (whose text is always exactly the term). -/
inductive Piece where
  | lit : Char → Piece
  | hit : Piece
deriving Repr, DecidableEq

/-- The left-to-right, non-overlapping match scan a JS global regex
performs over a subject string: at each position, if `\b(TERM)\b`
matches, the match is consumed (the engine resumes at `lastIndex`, the
position right after the match).  The consumed positions are walked one
character at a time through the skip counter `k`, so the word-ness `w`
of the previously seen character is maintained throughout. -/
def scanSkip (t : List Char) : Bool → Nat → List Char → List Piece
  | _, _, [] => []
  | _, Nat.succ k, c :: r => scanSkip t (wordC c) k r
  | w, 0, c :: r =>
      if matchHere w t (c :: r) then
        Piece.hit :: scanSkip t (wordC c) (t.length - 1) r
      else
        Piece.lit c :: scanSkip t (wordC c) 0 r

/-- The match decomposition of a whole text node (scan starts with no
preceding character, i.e. a non-word left context). -/
def wwPieces (t s : List Char) : List Piece := scanSkip t false 0 s

/-- Reassemble the original subject string from its match decomposition. -/
def flattenP (t : List Char) : List Piece → List Char
  | [] => []
  | Piece.lit c :: ps => c :: flattenP t ps
  | Piece.hit :: ps => t ++ flattenP t ps

/-- Number of matches in a decomposition. -/
def hitCount : List Piece → Nat
  | [] => 0
  | Piece.hit :: ps => hitCount ps + 1
  | Piece.lit _ :: ps => hitCount ps

mutual

/-- `GetSubstitution` of `String.prototype.replace`: expand the `$`
patterns of the replacement string for one match.  `m` is the matched
text (which for `\b(TERM)\b` is also capture group 1 — the regex has
exactly one capture group, so `$2`..`$9` stay literal), `bef` the part
of the subject before the match and `aft` the part after it. -/
def processDollar (m bef aft : List Char) : List Char → List Char
  | [] => []
  | c :: r =>
      if c = '$' then dollarEscape m bef aft r
      else c :: processDollar m bef aft r

def dollarEscape (m bef aft : List Char) : List Char → List Char
  | [] => ['$']
  | d :: r2 =>
      if d = '$' then '$' :: processDollar m bef aft r2
      else if d = '&' then m ++ processDollar m bef aft r2
      else if d = Char.ofNat 96 then bef ++ processDollar m bef aft r2
      else if d = Char.ofNat 39 then aft ++ processDollar m bef aft r2
      else if d = '1' then m ++ processDollar m bef aft r2
      else '$' :: d :: processDollar m bef aft r2

end

/-- Render a match decomposition the way
`String.prototype.replace(regex, repl)` builds its result: literal
characters are copied, every match is replaced by the `$`-expanded
replacement string.  `bef` accumulates the subject prefix already
consumed (needed for the backtick and quote `$` patterns). -/
def renderHitsAux (repl t : List Char) (bef : List Char) :
    List Piece → List Char
  | [] => []
  | Piece.lit c :: ps => c :: renderHitsAux repl t (bef ++ [c]) ps
  | Piece.hit :: ps =>
      processDollar t bef (flattenP t ps) repl ++
        renderHitsAux repl t (bef ++ t) ps

/-- `html.replace(new RegExp('\\b(' + escapeRegex(term) + ')\\b', 'g'),
repl)` (script.js:292-299): `escapeRegex` makes the term literal, and a
global replace rewrites every left-to-right non-overlapping match. -/
def replaceTerm (repl t s : List Char) : List Char :=
  renderHitsAux repl t [] (wwPieces t s)

/-- `regex.test(html)` (script.js:294): a global regex finds a match
iff the scan produces at least one hit. -/
def hasMatch (t s : List Char) : Bool := hitCount (wwPieces t s) != 0

/-- `AutoEnhance.escapeHtml` (script.js:314-318): serialize the text
through a div (`innerHTML` entity-encodes the markup-significant
characters, including the non-breaking space) and then replace every
double quote by its entity. -/
def escapeHtmlChar (c : Char) : List Char :=
  if c = '&' then "&amp;".data
  else if c = '<' then "&lt;".data
  else if c = '>' then "&gt;".data
  else if c = '"' then "&quot;".data
  else if c = Char.ofNat 160 then "&nbsp;".data
  else [c]

def escapeHtml (s : List Char) : List Char := (s.map escapeHtmlChar).flatten

/-- The replacement template of script.js:297:
`<a href="${linkPrefix}#${def.slug}" class="definition-link"
data-term="${def.term}" data-definition="${escapeHtml(def.preview)}">$1</a>`. -/
def linkOpen (pfx : List Char) (t : Term) : List Char :=
  "<a href=\"".data ++ pfx ++ "#".data ++ t.slug ++
    "\" class=\"definition-link\" data-term=\"".data ++ t.term ++
    "\" data-definition=\"".data ++ escapeHtml t.preview ++ "\">".data

def linkTemplate (pfx : List Char) (t : Term) : List Char :=
  linkOpen pfx t ++ "$1</a>".data

/-- The per-text-node loop of `AutoEnhance.processTextNode`
(script.js:286-300): fold every registered term over the node's text,
each term rewriting the current HTML string by a global replace;
`modified` records whether any term matched. -/
def annotateHtml (defs : List Term) (pfx : List Char) (s : List Char) :
    List Char × Bool :=
  defs.foldl
    (fun acc t =>
      (replaceTerm (linkTemplate pfx t) t.term acc.1,
       acc.2 || hasMatch t.term acc.1))
    (s, false)

/-- Number of (possibly overlapping) occurrences of `pat` in `s`. -/
def countOccur (pat : List Char) : List Char → Nat
  | [] => 0
  | c :: r => (if pat.isPrefixOf (c :: r) then 1 else 0) + countOccur pat r

-- ======================= C1 =======================

theorem flattenP_scanSkip (t : List Char) (s : List Char) :
    ∀ (w : Bool) (k : Nat), flattenP t (scanSkip t w k s) = s.drop k := by
  induction s with
  | nil => intro w k; simp [scanSkip, flattenP]
  | cons c r ih =>
      intro w k
      match k with
      | Nat.succ k2 => simpa [scanSkip] using ih (wordC c) k2
      | 0 =>
          rw [scanSkip]
          by_cases h : matchHere w t (c :: r)
          · simp only [if_pos h, flattenP, ih (wordC c) (t.length - 1)]
            simp only [matchHere, Bool.and_eq_true] at h
            have hpre : t <+: (c :: r) :=
              List.isPrefixOf_iff_prefix.mp h.1.1.2
            obtain ⟨tail, htail⟩ := hpre
            have hne : t ≠ [] := by
              have := h.1.1.1
              simp only [Bool.not_eq_true'] at this
              intro he
              rw [he] at this
              simp at this
            rcases t with _ | ⟨t0, t1⟩
            · exact absurd rfl hne
            · simp only [List.cons_append, List.cons.injEq] at htail
              obtain ⟨hc0, hr⟩ := htail
              simp only [List.length_cons, Nat.add_sub_cancel, List.drop_zero]
              rw [← hr, List.drop_left]
              simp [hc0]
          · simp [if_neg h, flattenP, ih (wordC c) 0]

/-- Reassembling the match decomposition of a text node yields the
node's text back: the scan is a decomposition of the subject. -/
theorem flattenP_wwPieces (t s : List Char) :
    flattenP t (wwPieces t s) = s := by
  simpa using flattenP_scanSkip t s false 0

theorem processDollar_append_noDollar (m bef aft a x : List Char)
    (h : '$' ∉ a) :
    processDollar m bef aft (a ++ x) = a ++ processDollar m bef aft x := by
  induction a with
  | nil => simp
  | cons c a' ih =>
      have hc : c ≠ '$' := fun e => h (by simp [e])
      have h' : '$' ∉ a' := fun hm => h (List.mem_cons_of_mem _ hm)
      simp only [List.cons_append, processDollar, if_neg hc,
        List.append_eq, ih h']

theorem processDollar_noDollar (m bef aft a : List Char) (h : '$' ∉ a) :
    processDollar m bef aft a = a := by
  have h2 := processDollar_append_noDollar m bef aft a [] h
  simpa [processDollar] using h2

theorem escapeHtmlChar_noDollar (c : Char) (hc : c ≠ '$') :
    '$' ∉ escapeHtmlChar c := by
  unfold escapeHtmlChar
  split_ifs
  · decide
  · decide
  · decide
  · decide
  · decide
  · exact fun e => hc (List.mem_singleton.mp e).symm

theorem escapeHtml_noDollar (s : List Char) (h : '$' ∉ s) :
    '$' ∉ escapeHtml s := by
  induction s with
  | nil => simp [escapeHtml]
  | cons c s' ih =>
      have hc : c ≠ '$' := fun e => h (by simp [e])
      have h' : '$' ∉ s' := fun hm => h (List.mem_cons_of_mem _ hm)
      simp only [escapeHtml, List.map_cons, List.flatten_cons]
      intro hm
      rcases List.mem_append.mp hm with hm | hm
      · exact escapeHtmlChar_noDollar c hc hm
      · exact ih h' hm

theorem linkOpen_noDollar (pfx : List Char) (t : Term)
    (h2 : '$' ∉ t.term) (h3 : '$' ∉ t.slug) (h4 : '$' ∉ t.preview)
    (h5 : '$' ∉ pfx) : '$' ∉ linkOpen pfx t := by
  unfold linkOpen
  intro hm
  simp only [List.append_assoc, List.mem_append] at hm
  rcases hm with hm | hm | hm | hm | hm | hm | hm | hm | hm
  · exact absurd hm (by decide)
  · exact h5 hm
  · exact absurd hm (by decide)
  · exact h3 hm
  · exact absurd hm (by decide)
  · exact h2 hm
  · exact absurd hm (by decide)
  · exact escapeHtml_noDollar t.preview h4 hm
  · exact absurd hm (by decide)

theorem processDollar_linkTemplate (pfx : List Char) (t : Term)
    (m bef aft : List Char)
    (h2 : '$' ∉ t.term) (h3 : '$' ∉ t.slug) (h4 : '$' ∉ t.preview)
    (h5 : '$' ∉ pfx) :
    processDollar m bef aft (linkTemplate pfx t) =
      linkOpen pfx t ++ (m ++ "</a>".data) := by
  have ho := linkOpen_noDollar pfx t h2 h3 h4 h5
  rw [linkTemplate, processDollar_append_noDollar m bef aft _ _ ho]
  congr 1

/-- The shape the claim expects of the rewritten node text: all
characters outside matches verbatim, each match enclosed in the opening
link markup and the closing anchor tag. -/
def renderWrap (o cl t : List Char) : List Piece → List Char
  | [] => []
  | Piece.lit ch :: ps => ch :: renderWrap o cl t ps
  | Piece.hit :: ps => o ++ t ++ cl ++ renderWrap o cl t ps

theorem renderHitsAux_wrap (pfx : List Char) (t : Term)
    (h2 : '$' ∉ t.term) (h3 : '$' ∉ t.slug) (h4 : '$' ∉ t.preview)
    (h5 : '$' ∉ pfx) (pieces : List Piece) :
    ∀ bef, renderHitsAux (linkTemplate pfx t) t.term bef pieces =
      renderWrap (linkOpen pfx t) "</a>".data t.term pieces := by
  induction pieces with
  | nil => intro bef; rfl
  | cons p ps ih =>
      intro bef
      cases p with
      | lit c => simp only [renderHitsAux, renderWrap, ih]
      | hit =>
          simp only [renderHitsAux, renderWrap,
            processDollar_linkTemplate pfx t _ _ _ h2 h3 h4 h5, ih]
          simp [List.append_assoc]

/-- **C1** (corrected).  What a single run actually does to a text
node, for a registry with one term (whose name, slug, preview and link
path contain no dollar character, so the replacement template expands
plainly): the run wraps one link around EVERY left-to-right whole-word,
case-matching occurrence of the term — not only the first — and every
character of the node's text outside the matches is preserved verbatim
in the produced markup string, each match being reproduced verbatim
inside its link. -/
theorem c1_theorem (t : Term) (pfx s : List Char)
    (h2 : '$' ∉ t.term) (h3 : '$' ∉ t.slug) (h4 : '$' ∉ t.preview)
    (h5 : '$' ∉ pfx) :
    (annotateHtml [t] pfx s).1 =
      renderWrap (linkOpen pfx t) "</a>".data t.term (wwPieces t.term s) ∧
    flattenP t.term (wwPieces t.term s) = s := by
  constructor
  · show replaceTerm (linkTemplate pfx t) t.term s = _
    rw [replaceTerm, renderHitsAux_wrap pfx t h2 h3 h4 h5]
  · exact flattenP_wwPieces t.term s

/-- A concrete registry term used by witnesses and counterexamples. -/
def aslanTerm : Term :=
  ⟨"Aslan".data, "aslan".data, "The Great Lion".data⟩

/-- Counterexample to C1 as stated: the text node `Aslan and Aslan`
contains a whole-word, case-matching occurrence of the registered term
`Aslan`, yet one run of the annotation pass produces TWO wrapped links
(one per occurrence), not "exactly one link around the first such
occurrence". -/
theorem c1_counterexample :
    countOccur "<a href".data
      (annotateHtml [aslanTerm] "pages/definitions.html".data
        "Aslan and Aslan".data).1 = 2 ∧ (2 : Nat) ≠ 1 := by
  constructor
  · decide
  · decide

/-- Witness for the amended C1 at a concrete text node. -/
theorem c1_witness :
    (annotateHtml [aslanTerm] "pages/definitions.html".data
        "Hello Aslan.".data).1 =
      renderWrap (linkOpen "pages/definitions.html".data aslanTerm)
        "</a>".data aslanTerm.term
        (wwPieces aslanTerm.term "Hello Aslan.".data) ∧
    flattenP aslanTerm.term (wwPieces aslanTerm.term "Hello Aslan.".data) =
      "Hello Aslan.".data :=
  c1_theorem aslanTerm "pages/definitions.html".data "Hello Aslan.".data
    (by decide) (by decide) (by decide) (by decide)

-- ======================= C6 =======================

/-- The vertical placement computed by `LinkPopup.show`
(script.js:481-492).  Pixel quantities are modelled as integers. -/
def popupTop (isTouch : Bool) (rTop rBottom scrollY innerH : Int) : Int :=
  let popupHeight : Int := if isTouch then 160 else 120
  if innerH - rBottom ≥ popupHeight ∨ innerH - rBottom ≥ rTop then
    rBottom + scrollY + 8
  else
    rTop + scrollY - popupHeight - 8

/-- The horizontal placement computed by `LinkPopup.show`
(script.js:494-503); the touch branch's halving is floor division. -/
def popupLeft (isTouch : Bool) (rLeft scrollX innerW : Int) : Int :=
  if isTouch then max 16 ((innerW - min (innerW - 32) 400) / 2)
  else max 16 (min (rLeft + scrollX) (innerW - 420))

/-- Counterexample to C6 as stated: on a non-touch device with the
anchor at `top=10, bottom=150` in a 200-pixel-high viewport, the space
below (50) is insufficient for the popup height (120), yet the code
still places the popup BELOW the anchor (top = bottom + scrollY + 8 =
158), because the space below (50) is at least the space above (10);
the claimed above-placement would be `10 - 120 - 8 = -118`. -/
theorem c6_counterexample :
    popupTop false 10 150 0 200 = 158 ∧
    (200 : Int) - 150 < 120 ∧
    (158 : Int) ≠ 10 + 0 - 120 - 8 := by
  refine ⟨by decide, by decide, by decide⟩

/-- **C6** (corrected).  On a non-touch device the popup flips above
the anchor only when the space below is insufficient for the popup
height AND smaller than the space above (then top =
anchorTop + scrollY − 128); the computed left offset always stays at
least 16, and stays at most `viewportWidth − 420` (right edge within
the viewport minus the margin for the 400-pixel-wide popup) whenever
the viewport is at least 436 pixels wide. -/
theorem c6_theorem (rTop rBottom rLeft scrollX scrollY innerW innerH : Int)
    (h1 : innerH - rBottom < 120) (h2 : innerH - rBottom < rTop)
    (h3 : 436 ≤ innerW) :
    popupTop false rTop rBottom scrollY innerH = rTop + scrollY - 128 ∧
    16 ≤ popupLeft false rLeft scrollX innerW ∧
    popupLeft false rLeft scrollX innerW ≤ innerW - 420 := by
  refine ⟨?_, ?_, ?_⟩
  · simp only [popupTop, Bool.false_eq_true, if_false]
    rw [if_neg (by omega)]
    omega
  · simp only [popupLeft, Bool.false_eq_true, if_false]
    omega
  · simp only [popupLeft, Bool.false_eq_true, if_false]
    omega

/-- Witness for the amended C6 at a concrete anchor rectangle. -/
theorem c6_witness :
    popupTop false 300 690 0 700 = 300 + 0 - 128 ∧
    16 ≤ popupLeft false 20 0 800 ∧
    popupLeft false 20 0 800 ≤ 800 - 420 :=
  c6_theorem 300 690 20 0 0 800 700 (by decide) (by decide) (by decide)

-- ======================= C7 =======================

/-- The presentation state of a sidenote's content block: inline style
positions, inline `display` style, and whether the `visible` class is
present. -/
structure SContent where
  left : Int
  top : Int
  display : List Char
  visible : Bool
deriving Repr, DecidableEq

/-- `DesktopSidenotes.positionSidenote` (script.js:585-616): place the
content block just right of the content column, clamp the left
position to the viewport when it would overflow, clamp the top into
the viewport. -/
def positionSidenote (contentRight snTop innerW innerH : Int) : Int × Int :=
  let leftPos0 := contentRight + 16
  let sidenoteWidth : Int := 240
  let leftPos := if leftPos0 + sidenoteWidth > innerW - 16
    then innerW - sidenoteWidth - 16 else leftPos0
  let maxHeight : Int := 300
  let topPos1 := if snTop + maxHeight > innerH - 16
    then innerH - maxHeight - 16 else snTop
  let topPos := if topPos1 < 16 then 16 else topPos1
  (leftPos, topPos)

/-- The `showSidenote` handler of `DesktopSidenotes.setup`
(script.js:551-554): position the content block, then add the
`visible` class; the inline `display` style is never touched. -/
def showSidenote (c : SContent) (contentRight snTop innerW innerH : Int) :
    SContent :=
  let p := positionSidenote contentRight snTop innerW innerH
  { c with left := p.1, top := p.2, visible := true }

/-- Counterexample to C7 as stated: with the content column's right
edge at 1000 in a 1100-pixel viewport the content block would overflow
the right edge (1000+16+240 > 1100−16), yet the engine does NOT
suppress the block's display — it clamps the left position to 844 and
still shows the block (`visible` class added, `display` style left
untouched rather than set to `none`). -/
theorem c7_counterexample :
    showSidenote ⟨0, 0, [], false⟩ 1000 50 1100 800 =
      ⟨844, 50, [], true⟩ ∧
    (1000 : Int) + 16 + 240 > 1100 - 16 ∧
    ("none".data ≠ ([] : List Char)) := by
  refine ⟨by decide, by decide, by decide⟩

/-- **C7** (corrected).  In desktop-margin mode, when the content block
placed just outside the content column would overflow the viewport's
right edge, the engine clamps its left position to
`viewportWidth − 256` — keeping `left + 240 ≤ viewportWidth − 16` —
and still displays the block (it never suppresses display). -/
theorem c7_theorem (c : SContent) (contentRight snTop innerW innerH : Int)
    (h : contentRight + 16 + 240 > innerW - 16) :
    (showSidenote c contentRight snTop innerW innerH).left =
      innerW - 256 ∧
    (showSidenote c contentRight snTop innerW innerH).left + 240 ≤
      innerW - 16 ∧
    (showSidenote c contentRight snTop innerW innerH).visible = true ∧
    (showSidenote c contentRight snTop innerW innerH).display =
      c.display := by
  have hl : (positionSidenote contentRight snTop innerW innerH).1 =
      innerW - 256 := by
    simp only [positionSidenote]
    rw [if_pos (by omega)]
    omega
  refine ⟨?_, ?_, rfl, rfl⟩
  · simpa [showSidenote] using hl
  · simp only [showSidenote]
    omega

/-- Witness for the amended C7 at a concrete overflowing layout. -/
theorem c7_witness :
    (showSidenote ⟨0, 0, [], false⟩ 900 100 1000 900).left =
      1000 - 256 ∧
    (showSidenote ⟨0, 0, [], false⟩ 900 100 1000 900).left + 240 ≤
      1000 - 16 ∧
    (showSidenote ⟨0, 0, [], false⟩ 900 100 1000 900).visible = true ∧
    (showSidenote ⟨0, 0, [], false⟩ 900 100 1000 900).display =
      (⟨0, 0, [], false⟩ : SContent).display :=
  c7_theorem ⟨0, 0, [], false⟩ 900 100 1000 900 (by decide)

-- ======================= C8 =======================

/-- The mobile wrapper `MobileSidenotes.convertToInline` builds
(script.js:657-681): a toggle button (collapsed, inactive, labelled
`Show note n`, numbered `n`) and an inline content span (copy of the
sidenote content's HTML, hidden). -/
structure MobileWrapper where
  ariaExpanded : Bool
  toggleActive : Bool
  label : List Char
  numberText : Nat
  inlineHTML : List Char
  inlineHidden : Bool
deriving Repr, DecidableEq

/-- A sidenote element as the two mode-switching passes observe it:
the `sidenote-mobile-converted` marker class, the number label and
content block (presence and inline `display` style), the content
block's HTML, and the mobile wrapper appended to the element (if any). -/
structure Sidenote where
  converted : Bool
  hasNumber : Bool
  numberDisplay : List Char
  hasContent : Bool
  contentDisplay : List Char
  contentHTML : List Char
  wrapper : Option MobileWrapper
deriving Repr, DecidableEq

/-- `MobileSidenotes.convertToInline` for one sidenote
(script.js:643-689): skip if already converted or without a content
block; otherwise mark converted, build the wrapper, hide the number
label (if present) and the content block. -/
def convertToInline (index : Nat) (s : Sidenote) : Sidenote :=
  if s.converted then s
  else if !s.hasContent then s
  else
    { s with
      converted := true,
      wrapper := some ⟨false, false,
        "Show note ".data ++ (Nat.repr (index + 1)).data, index + 1,
        s.contentHTML, true⟩,
      numberDisplay := if s.hasNumber then "none".data else s.numberDisplay,
      contentDisplay := "none".data }

/-- `MobileSidenotes.revertToSidenotes` for one sidenote
(script.js:692-704): only converted sidenotes are selected; the
wrapper is removed, the number label's and content block's inline
`display` styles are reset to the empty string, and the marker class
is removed. -/
def revertToSidenotes (s : Sidenote) : Sidenote :=
  if !s.converted then s
  else
    { s with
      wrapper := none,
      numberDisplay := if s.hasNumber then [] else s.numberDisplay,
      contentDisplay := if s.hasContent then [] else s.contentDisplay,
      converted := false }

/-- **C8** (confirmed).  For every sidenote in its original state (not
yet converted, no wrapper present, no inline display styles on the
number label or content block — the state of the page's markup),
converting to mobile-inline mode and reverting restores the sidenote
exactly: original structure and visibility of the number label and
content block, and no toggle controls or wrapper elements left. -/
theorem c8_theorem (s : Sidenote) (index : Nat)
    (h1 : s.converted = false) (h2 : s.wrapper = none)
    (h3 : s.numberDisplay = []) (h4 : s.contentDisplay = []) :
    revertToSidenotes (convertToInline index s) = s := by
  obtain ⟨cv, hnum, nd, hcnt, cd, ch, w⟩ := s
  simp only at h1 h2 h3 h4
  subst h1; subst h2; subst h3; subst h4
  cases hnum <;> cases hcnt <;>
    simp [convertToInline, revertToSidenotes]

/-- Witness for C8 at a concrete sidenote. -/
theorem c8_witness :
    revertToSidenotes (convertToInline 0
      ⟨false, true, [], true, [], "A note.".data, none⟩) =
      ⟨false, true, [], true, [], "A note.".data, none⟩ :=
  c8_theorem ⟨false, true, [], true, [], "A note.".data, none⟩ 0
    rfl rfl rfl rfl

-- ======================= C9 =======================

/-- Scan the inside of a tag: the characters of `[^>]+` up to the
first `>`, returning the body and the remainder after the `>`. -/
def tagBody : List Char → Option (List Char × List Char)
  | [] => none
  | c :: r =>
      if c = '>' then some ([], r)
      else
        match tagBody r with
        | some (b, rest) => some (c :: b, rest)
        | none => none

theorem tagBody_some (r b rest : List Char)
    (h : tagBody r = some (b, rest)) :
    r = b ++ '>' :: rest ∧ '>' ∉ b := by
  induction r generalizing b with
  | nil => simp [tagBody] at h
  | cons c r' ih =>
      by_cases hc : c = '>'
      · subst hc
        replace h : some (([] : List Char), r') = some (b, rest) := h
        simp only [Option.some.injEq, Prod.mk.injEq] at h
        obtain ⟨hb, hr⟩ := h
        subst hr
        rw [← hb]
        simp
      · simp only [tagBody, if_neg hc] at h
        rcases hb : tagBody r' with _ | ⟨b', rest'⟩
        · rw [hb] at h; cases h
        · rw [hb] at h
          replace h : some (c :: b', rest') = some (b, rest) := h
          simp only [Option.some.injEq, Prod.mk.injEq] at h
          obtain ⟨h1, h2⟩ := h
          obtain ⟨hr, hmem⟩ := ih b' (by rw [hb, h2])
          constructor
          · rw [← h1, hr]; simp
          · rw [← h1]
            intro hm
            rcases List.mem_cons.mp hm with hm | hm
            · exact hc hm.symm
            · exact hmem hm

theorem tagBody_append (b x : List Char) (h : '>' ∉ b) :
    tagBody (b ++ '>' :: x) = some (b, x) := by
  induction b with
  | nil => simp [tagBody]
  | cons c b' ih =>
      have hc : c ≠ '>' := fun e => h (by simp [e])
      have h' : '>' ∉ b' := fun hm => h (List.mem_cons_of_mem _ hm)
      simp [tagBody, hc, ih h']

/-- The tag step of the dropcap regex `(?:<[^>]+>)*` (script.js:236):
after a `<`, consume at least one non-`>` character up to a `>`. -/
def splitTag (r : List Char) : Option (List Char × List Char) :=
  match tagBody r with
  | some (b, rest) => if b.isEmpty then none else some (b, rest)
  | none => none

theorem splitTag_some (r b rest : List Char)
    (h : splitTag r = some (b, rest)) :
    r = b ++ '>' :: rest ∧ '>' ∉ b ∧ b ≠ [] := by
  unfold splitTag at h
  rcases hb : tagBody r with _ | ⟨b', rest'⟩
  · rw [hb] at h; cases h
  · rw [hb] at h
    replace h : (if b'.isEmpty = true then
        (none : Option (List Char × List Char))
      else some (b', rest')) = some (b, rest) := h
    by_cases he : b'.isEmpty
    · rw [if_pos he] at h; cases h
    · rw [if_neg he] at h
      simp only [Option.some.injEq, Prod.mk.injEq] at h
      obtain ⟨h1, h2⟩ := h
      subst h1; subst h2
      obtain ⟨hr, hm⟩ := tagBody_some r b' rest' hb
      exact ⟨hr, hm, by simpa using he⟩

/-- The greedy leading-tag loop of the dropcap regex `(?:<[^>]+>)*`,
written with a step budget (each consumed tag costs one step, and the
budget is instantiated below with the string length, which always
suffices since every tag occupies at least one character): consume
whole tags while possible; return the consumed markup and the
remainder.  (When a `<` does not open a well-formed tag the loop
stops; the overall regex then fails on the letter class, as the
remainder starts with `<`.) -/
def takeTagsF : Nat → List Char → List Char × List Char
  | _, [] => ([], [])
  | 0, s => ([], s)
  | Nat.succ f, c :: r =>
      if c = '<' then
        match splitTag r with
        | some (b, rest) =>
            let p := takeTagsF f rest
            ('<' :: b ++ '>' :: p.1, p.2)
        | none => ([], c :: r)
      else ([], c :: r)

def takeTags (s : List Char) : List Char × List Char :=
  takeTagsF s.length s

/-- A well-formed tag token `<[^>]+>`. -/
def tagTokB (tg : List Char) : Bool :=
  match tg with
  | '<' :: rest =>
      (match tagBody rest with
       | some (b, r) => !b.isEmpty && r.isEmpty
       | none => false)
  | _ => false

def tagsFlat (tags : List (List Char)) : List Char := tags.flatten

theorem takeWhile_append_all (p : Char → Bool) (ws rest : List Char)
    (hws : ∀ x ∈ ws, p x = true)
    (hrest : match rest with | [] => True | c :: _ => p c = false) :
    (ws ++ rest).takeWhile p = ws ∧ (ws ++ rest).dropWhile p = rest := by
  induction ws with
  | nil =>
      rcases rest with _ | ⟨c, r⟩
      · simp
      · simp only at hrest
        simp [List.takeWhile, List.dropWhile, hrest]
  | cons x ws' ih =>
      have hx : p x = true := hws x (by simp)
      have h' : ∀ y ∈ ws', p y = true :=
        fun y hy => hws y (List.mem_cons_of_mem _ hy)
      obtain ⟨h1, h2⟩ := ih h'
      simp [List.takeWhile, List.dropWhile, hx, h1, h2]

theorem takeTagsF_spec (tags : List (List Char)) :
    ∀ (fuel : Nat) (r2 : List Char), tags.length ≤ fuel →
    (∀ tg ∈ tags, tagTokB tg = true) →
    (match r2 with | [] => True | c :: _ => c ≠ '<') →
    takeTagsF fuel (tagsFlat tags ++ r2) = (tagsFlat tags, r2) := by
  induction tags with
  | nil =>
      intro fuel r2 hlen htags hr2
      rcases r2 with _ | ⟨c, r⟩
      · cases fuel <;> simp [takeTagsF, tagsFlat]
      · simp only at hr2
        cases fuel <;> simp [takeTagsF, tagsFlat, hr2]
  | cons tg tags' ih =>
      intro fuel r2 hlen htags hr2
      have htg : tagTokB tg = true := htags tg (by simp)
      have h' : ∀ u ∈ tags', tagTokB u = true :=
        fun u hu => htags u (List.mem_cons_of_mem _ hu)
      rcases fuel with _ | f
      · simp at hlen
      · have hlen' : tags'.length ≤ f := by
          simp only [List.length_cons] at hlen
          omega
        rcases tg with _ | ⟨c0, rest0⟩
        · simp [tagTokB] at htg
        · by_cases hc0 : c0 = '<'
          · subst hc0
            simp only [tagTokB] at htg
            rcases hb : tagBody rest0 with _ | ⟨b, r⟩
            · rw [hb] at htg; simp at htg
            · rw [hb] at htg
              replace htg : (!b.isEmpty && r.isEmpty) = true := htg
              rw [Bool.and_eq_true] at htg
              obtain ⟨htg1, htg2⟩ := htg
              have hbne : b.isEmpty = false := by
                cases hbe : b.isEmpty
                · rfl
                · rw [hbe] at htg1; cases htg1
              have hrnil : r = [] := by
                cases r with
                | nil => rfl
                | cons a l => simp [List.isEmpty] at htg2
              subst hrnil
              obtain ⟨hrest0, hnogt⟩ := tagBody_some rest0 b [] hb
              subst hrest0
              have hflat : tagsFlat (('<' :: (b ++ ['>'])) :: tags') ++ r2 =
                  '<' :: (b ++ '>' :: (tagsFlat tags' ++ r2)) := by
                simp [tagsFlat]
              rw [hflat]
              have hsp : splitTag (b ++ '>' :: (tagsFlat tags' ++ r2)) =
                  some (b, tagsFlat tags' ++ r2) := by
                unfold splitTag
                rw [tagBody_append b _ hnogt]
                show (if b.isEmpty = true then
                    (none : Option (List Char × List Char))
                  else some (b, tagsFlat tags' ++ r2)) =
                  some (b, tagsFlat tags' ++ r2)
                rw [hbne]
                rfl
              simp only [takeTagsF, if_pos rfl, hsp,
                ih f r2 hlen' h' hr2]
              simp [tagsFlat]
          · simp [tagTokB, hc0] at htg

theorem tags_length_le_flat (tags : List (List Char))
    (htags : ∀ tg ∈ tags, tagTokB tg = true) :
    tags.length ≤ (tagsFlat tags).length := by
  induction tags with
  | nil => simp [tagsFlat]
  | cons tg tags' ih =>
      have htg : tagTokB tg = true := htags tg (by simp)
      have h' : ∀ u ∈ tags', tagTokB u = true :=
        fun u hu => htags u (List.mem_cons_of_mem _ hu)
      have htgne : tg ≠ [] := by
        intro he; rw [he] at htg; simp [tagTokB] at htg
      have h1 : 1 ≤ tg.length := by
        cases tg with
        | nil => exact absurd rfl htgne
        | cons a l => simp
      simp only [tagsFlat, List.flatten_cons, List.length_append,
        List.length_cons]
      have := ih h'
      simp only [tagsFlat] at this
      omega

theorem takeTags_spec (tags : List (List Char)) (r2 : List Char)
    (htags : ∀ tg ∈ tags, tagTokB tg = true)
    (hr2 : match r2 with | [] => True | c :: _ => c ≠ '<') :
    takeTags (tagsFlat tags ++ r2) = (tagsFlat tags, r2) := by
  unfold takeTags
  apply takeTagsF_spec tags _ r2 _ htags hr2
  have h1 := tags_length_le_flat tags htags
  simp only [List.length_append]
  omega

theorem asciiLetter_not_space (c : Char) (h : asciiLetter c = true) :
    jsSpace c = false := by
  have h1 : c ≠ ' ' := by intro e; subst e; exact absurd h (by decide)
  have h2 : c ≠ '\t' := by intro e; subst e; exact absurd h (by decide)
  have h3 : c ≠ '\n' := by intro e; subst e; exact absurd h (by decide)
  have h4 : c ≠ '\r' := by intro e; subst e; exact absurd h (by decide)
  have h5 : c ≠ '\x0b' := by intro e; subst e; exact absurd h (by decide)
  have h6 : c ≠ '\x0c' := by intro e; subst e; exact absurd h (by decide)
  simp [jsSpace, h1, h2, h3, h4, h5, h6]

theorem asciiLetter_ne_lt (c : Char) (h : asciiLetter c = true) :
    c ≠ '<' := by
  intro e; subst e; exact absurd h (by decide)

/-- The lead-of-paragraph match of the dropcap regex
`/^(\s*(?:<[^>]+>)*)([A-Za-z])/` (script.js:236): greedy leading
whitespace, then greedy whole tags, then one ASCII letter.  (The
regex's backtracking never helps here: letters are not `<` or
whitespace, so if the greedy parse fails every shorter parse fails
too.) -/
def matchLead (s : List Char) : Option (List Char × Char × List Char) :=
  let ws := s.takeWhile jsSpace
  let r1 := s.dropWhile jsSpace
  let p := takeTags r1
  match p.2 with
  | c :: rest => if asciiLetter c then some (ws ++ p.1, c, rest) else none
  | [] => none

theorem matchLead_spec (ws : List Char) (tags : List (List Char))
    (c : Char) (rest : List Char)
    (hws : ∀ x ∈ ws, jsSpace x = true)
    (htags : ∀ tg ∈ tags, tagTokB tg = true)
    (hc : asciiLetter c = true) :
    matchLead (ws ++ tagsFlat tags ++ c :: rest) =
      some (ws ++ tagsFlat tags, c, rest) := by
  have hhead : match (tagsFlat tags ++ c :: rest) with
      | [] => True | d :: _ => jsSpace d = false := by
    rcases tags with _ | ⟨tg, tags'⟩
    · simpa [tagsFlat] using asciiLetter_not_space c hc
    · have htg : tagTokB tg = true := htags tg (by simp)
      rcases tg with _ | ⟨c0, rest0⟩
      · simp [tagTokB] at htg
      · by_cases hc0 : c0 = '<'
        · subst hc0
          simp [tagsFlat]
          decide
        · simp [tagTokB, hc0] at htg
  obtain ⟨ht, hd⟩ := takeWhile_append_all jsSpace ws
    (tagsFlat tags ++ c :: rest) hws hhead
  rw [List.append_assoc]
  unfold matchLead
  simp only [ht, hd]
  rw [takeTags_spec tags (c :: rest) htags
    (by simpa using asciiLetter_ne_lt c hc)]
  simp [hc]

-- ======================= C9 dropcap =======================

/-- A lead paragraph as `AutoEnhance.applyDropcaps` observes it: its
`innerHTML`, its `textContent` (the DOM-derived plain text), and
whether it already contains a `.dropcap` descendant. -/
structure Para where
  innerHTML : List Char
  textContent : List Char
  hasDropcap : Bool
deriving Repr, DecidableEq

/-- The markup wrapped around the first letter (script.js:241). -/
def dropcapSpan (c : Char) : List Char :=
  "<span class=\"dropcap\">".data ++ [c] ++ "</span>".data

/-- `AutoEnhance.applyDropcaps` for one lead paragraph
(script.js:222-245): skip if a dropcap is already applied or the
trimmed plain text is shorter than 50 characters; otherwise match the
lead pattern on the innerHTML and wrap the matched letter, reinserting
the skipped leading markup unchanged before it. -/
def applyDropcaps (p : Para) : Para :=
  if p.hasDropcap then p
  else if (jsTrim p.textContent).length < 50 then p
  else
    match matchLead p.innerHTML with
    | some (bef, c, aft) =>
        { p with innerHTML := bef ++ dropcapSpan c ++ aft }
    | none => p

/-- **C9** (confirmed).  For a lead paragraph whose trimmed plain text
has at least 50 characters and that has no dropcap yet, whose raw
markup is leading whitespace, then whole leading tags, then an ASCII
letter: the formatter wraps exactly that first letter in the
dropcap-styled span and reinserts the skipped leading whitespace and
markup unchanged before it, leaving the remainder unchanged; a
paragraph below the threshold, or with an existing dropcap, is left
unmodified. -/
theorem c9_theorem :
    (∀ (p : Para) (ws : List Char) (tags : List (List Char)) (c : Char)
        (rest : List Char),
      p.hasDropcap = false →
      50 ≤ (jsTrim p.textContent).length →
      p.innerHTML = ws ++ tagsFlat tags ++ c :: rest →
      (∀ x ∈ ws, jsSpace x = true) →
      (∀ tg ∈ tags, tagTokB tg = true) →
      asciiLetter c = true →
      applyDropcaps p =
        { p with
            innerHTML := ws ++ tagsFlat tags ++ dropcapSpan c ++ rest }) ∧
    (∀ p : Para, (jsTrim p.textContent).length < 50 →
      applyDropcaps p = p) ∧
    (∀ p : Para, p.hasDropcap = true → applyDropcaps p = p) := by
  refine ⟨?_, ?_, ?_⟩
  · intro p ws tags c rest h1 h2 h3 hws htags hc
    unfold applyDropcaps
    rw [h1]
    simp only [Bool.false_eq_true, if_false]
    rw [if_neg (by omega), h3,
      matchLead_spec ws tags c rest hws htags hc]
  · intro p h
    unfold applyDropcaps
    by_cases h1 : p.hasDropcap
    · rw [if_pos h1]
    · rw [if_neg h1, if_pos h]
  · intro p h
    unfold applyDropcaps
    rw [if_pos h]

/-- Witness for C9: the spec's literal dropcap scenario (the emphasis
tag is preserved, only the letter `H` is wrapped), plus a
below-threshold paragraph and an already-dropcapped paragraph. -/
theorem c9_witness :
    applyDropcaps
      ⟨"<em>Hello</em> world, this is a long enough paragraph to qualify for a dropcap because it exceeds fifty characters total.".data,
       "Hello world, this is a long enough paragraph to qualify for a dropcap because it exceeds fifty characters total.".data,
       false⟩ =
      ⟨[] ++ tagsFlat ["<em>".data] ++ dropcapSpan 'H' ++
        "ello</em> world, this is a long enough paragraph to qualify for a dropcap because it exceeds fifty characters total.".data,
       "Hello world, this is a long enough paragraph to qualify for a dropcap because it exceeds fifty characters total.".data,
       false⟩ ∧
    applyDropcaps ⟨"<p>x</p>".data, "x".data, false⟩ =
      ⟨"<p>x</p>".data, "x".data, false⟩ ∧
    applyDropcaps ⟨"Done already.".data, "Done already.".data, true⟩ =
      ⟨"Done already.".data, "Done already.".data, true⟩ := by
  refine ⟨?_, ?_, ?_⟩
  · exact c9_theorem.1 _ [] ["<em>".data] 'H' _ rfl (by decide)
      (by decide) (by decide) (by decide) (by decide)
  · exact c9_theorem.2.1 _ (by decide)
  · exact c9_theorem.2.2 _ rfl

-- ======================= C10 =======================

/-- Numeric value of a decimal digit string. -/
def digitsVal (ds : List Char) : Nat :=
  ds.foldl (fun acc d => acc * 10 + (d.toNat - 48)) 0

/-- HTML character-reference decoding as the browser applies it when
parsing the generated markup (attribute values and text), restricted
to the references relevant here: the five named references the
engine's own serializer emits plus decimal numeric references.
Written with a step budget (every step consumes at least one input
character, so the input length suffices as budget). -/
def decodeEntitiesF : Nat → List Char → List Char
  | _, [] => []
  | 0, s => s
  | Nat.succ f, c :: r =>
      if c = '&' then
        if "amp;".data.isPrefixOf r then '&' :: decodeEntitiesF f (r.drop 4)
        else if "lt;".data.isPrefixOf r then '<' :: decodeEntitiesF f (r.drop 3)
        else if "gt;".data.isPrefixOf r then '>' :: decodeEntitiesF f (r.drop 3)
        else if "quot;".data.isPrefixOf r then
          '"' :: decodeEntitiesF f (r.drop 5)
        else if "nbsp;".data.isPrefixOf r then
          Char.ofNat 160 :: decodeEntitiesF f (r.drop 5)
        else if r.head? = some '#' then
          let r' := r.drop 1
          let ds := r'.takeWhile Char.isDigit
          let rest := r'.drop ds.length
          if ds.isEmpty then '&' :: decodeEntitiesF f r
          else
            match rest with
            | ';' :: r2 => Char.ofNat (digitsVal ds) :: decodeEntitiesF f r2
            | _ => '&' :: decodeEntitiesF f r
        else '&' :: decodeEntitiesF f r
      else c :: decodeEntitiesF f r

def decodeEntities (s : List Char) : List Char :=
  decodeEntitiesF s.length s

theorem escapeHtmlChar_noQuote (c : Char) : '"' ∉ escapeHtmlChar c := by
  unfold escapeHtmlChar
  split_ifs with h1 h2 h3 h4 h5
  · decide
  · decide
  · decide
  · decide
  · decide
  · exact fun e => h4 (List.mem_singleton.mp e).symm

theorem escapeHtmlChar_noLt (c : Char) : '<' ∉ escapeHtmlChar c := by
  unfold escapeHtmlChar
  split_ifs with h1 h2 h3 h4 h5
  · decide
  · decide
  · decide
  · decide
  · decide
  · exact fun e => h2 (List.mem_singleton.mp e).symm

theorem escapeHtml_noQuote (s : List Char) : '"' ∉ escapeHtml s := by
  induction s with
  | nil => simp [escapeHtml]
  | cons c s' ih =>
      simp only [escapeHtml, List.map_cons, List.flatten_cons]
      intro hm
      rcases List.mem_append.mp hm with hm | hm
      · exact escapeHtmlChar_noQuote c hm
      · exact ih hm

theorem escapeHtml_noLt (s : List Char) : '<' ∉ escapeHtml s := by
  induction s with
  | nil => simp [escapeHtml]
  | cons c s' ih =>
      simp only [escapeHtml, List.map_cons, List.flatten_cons]
      intro hm
      rcases List.mem_append.mp hm with hm | hm
      · exact escapeHtmlChar_noLt c hm
      · exact ih hm

theorem isPrefixOf_append_self (l x : List Char) :
    l.isPrefixOf (l ++ x) = true :=
  List.isPrefixOf_iff_prefix.mpr (List.prefix_append l x)

theorem decodeF_escape (s : List Char) :
    ∀ fuel, (escapeHtml s).length ≤ fuel →
    decodeEntitiesF fuel (escapeHtml s) = s := by
  induction s with
  | nil =>
      intro fuel h
      rcases fuel with _ | f <;> simp [escapeHtml, decodeEntitiesF]
  | cons c s' ih =>
      intro fuel hf
      have hcons : escapeHtml (c :: s') =
          escapeHtmlChar c ++ escapeHtml s' := by
        simp [escapeHtml]
      rw [hcons] at hf ⊢
      by_cases h1 : c = '&'
      · subst h1
        have he : escapeHtmlChar '&' = "&amp;".data := rfl
        rw [he] at hf ⊢
        rcases fuel with _ | f
        · simp at hf
        · show decodeEntitiesF (f + 1)
            ('&' :: ("amp;".data ++ escapeHtml s')) = '&' :: s'
          simp only [decodeEntitiesF, if_pos rfl,
            isPrefixOf_append_self, if_true, List.drop_left]
          have : (escapeHtml s').length ≤ f := by
            simp [List.length_append] at hf
            omega
          rw [List.drop_left' (by rfl), ih f this]
      · by_cases h2 : c = '<'
        · subst h2
          have he : escapeHtmlChar '<' = "&lt;".data := rfl
          rw [he] at hf ⊢
          rcases fuel with _ | f
          · simp at hf
          · show decodeEntitiesF (f + 1)
              ('&' :: ("lt;".data ++ escapeHtml s')) = '<' :: s'
            have hp1 : "amp;".data.isPrefixOf
                ("lt;".data ++ escapeHtml s') = false := by
              simp [List.isPrefixOf]
            simp only [decodeEntitiesF, if_pos rfl, hp1,
              Bool.false_eq_true, if_false,
              isPrefixOf_append_self, if_true]
            have : (escapeHtml s').length ≤ f := by
              simp [List.length_append] at hf
              omega
            rw [List.drop_left' (by rfl), ih f this]
        · by_cases h3 : c = '>'
          · subst h3
            have he : escapeHtmlChar '>' = "&gt;".data := rfl
            rw [he] at hf ⊢
            rcases fuel with _ | f
            · simp at hf
            · show decodeEntitiesF (f + 1)
                ('&' :: ("gt;".data ++ escapeHtml s')) = '>' :: s'
              have hp1 : "amp;".data.isPrefixOf
                  ("gt;".data ++ escapeHtml s') = false := by
                simp [List.isPrefixOf]
              have hp2 : "lt;".data.isPrefixOf
                  ("gt;".data ++ escapeHtml s') = false := by
                simp [List.isPrefixOf]
              simp only [decodeEntitiesF, if_pos rfl, hp1, hp2,
                Bool.false_eq_true, if_false,
                isPrefixOf_append_self, if_true]
              have : (escapeHtml s').length ≤ f := by
                simp [List.length_append] at hf
                omega
              rw [List.drop_left' (by rfl), ih f this]
          · by_cases h4 : c = '"'
            · subst h4
              have he : escapeHtmlChar '"' = "&quot;".data := rfl
              rw [he] at hf ⊢
              rcases fuel with _ | f
              · simp at hf
              · show decodeEntitiesF (f + 1)
                  ('&' :: ("quot;".data ++ escapeHtml s')) = '"' :: s'
                have hp1 : "amp;".data.isPrefixOf
                    ("quot;".data ++ escapeHtml s') = false := by
                  simp [List.isPrefixOf]
                have hp2 : "lt;".data.isPrefixOf
                    ("quot;".data ++ escapeHtml s') = false := by
                  simp [List.isPrefixOf]
                have hp3 : "gt;".data.isPrefixOf
                    ("quot;".data ++ escapeHtml s') = false := by
                  simp [List.isPrefixOf]
                simp only [decodeEntitiesF, if_pos rfl, hp1, hp2, hp3,
                  Bool.false_eq_true, if_false,
                  isPrefixOf_append_self, if_true]
                have : (escapeHtml s').length ≤ f := by
                  simp [List.length_append] at hf
                  omega
                rw [List.drop_left' (by rfl), ih f this]
            · by_cases h5 : c = Char.ofNat 160
              · subst h5
                have he : escapeHtmlChar (Char.ofNat 160) =
                    "&nbsp;".data := rfl
                rw [he] at hf ⊢
                rcases fuel with _ | f
                · simp at hf
                · show decodeEntitiesF (f + 1)
                    ('&' :: ("nbsp;".data ++ escapeHtml s')) =
                    Char.ofNat 160 :: s'
                  have hp1 : "amp;".data.isPrefixOf
                      ("nbsp;".data ++ escapeHtml s') = false := by
                    simp [List.isPrefixOf]
                  have hp2 : "lt;".data.isPrefixOf
                      ("nbsp;".data ++ escapeHtml s') = false := by
                    simp [List.isPrefixOf]
                  have hp3 : "gt;".data.isPrefixOf
                      ("nbsp;".data ++ escapeHtml s') = false := by
                    simp [List.isPrefixOf]
                  have hp4 : "quot;".data.isPrefixOf
                      ("nbsp;".data ++ escapeHtml s') = false := by
                    simp [List.isPrefixOf]
                  simp only [decodeEntitiesF, if_pos rfl, hp1, hp2, hp3,
                    hp4, Bool.false_eq_true, if_false,
                    isPrefixOf_append_self, if_true]
                  have : (escapeHtml s').length ≤ f := by
                    simp [List.length_append] at hf
                    omega
                  rw [List.drop_left' (by rfl), ih f this]
              · have he : escapeHtmlChar c = [c] := by
                  simp [escapeHtmlChar, h1, h2, h3, h4, h5]
                rw [he] at hf ⊢
                rcases fuel with _ | f
                · simp at hf
                · show decodeEntitiesF (f + 1)
                    (c :: escapeHtml s') = c :: s'
                  simp only [decodeEntitiesF, if_neg h1]
                  have : (escapeHtml s').length ≤ f := by
                    simp at hf
                    omega
                  rw [ih f this]

/-- Decoding the escaped text recovers it exactly. -/
theorem decodeEntities_escapeHtml (s : List Char) :
    decodeEntities (escapeHtml s) = s :=
  decodeF_escape s (escapeHtml s).length (le_refl _)

/-- Locate the first occurrence of `marker` in `s` and return the
remainder after it. -/
def findMarker (marker : List Char) : List Char → Option (List Char)
  | [] => if marker.isEmpty then some [] else none
  | c :: r =>
      if marker.isPrefixOf (c :: r) then some ((c :: r).drop marker.length)
      else findMarker marker r

/-- The raw value of the `data-definition` attribute of the first
annotation link in a markup string (the characters between
`data-definition="` and the next double quote), as an HTML parser
would delimit it. -/
def extractDataDef (s : List Char) : Option (List Char) :=
  match findMarker "data-definition=\"".data s with
  | some rest => some (rest.takeWhile (fun c => c ≠ '"'))
  | none => none

/-- Counterexample to C10 as stated: for the preview text `$1`, the
generated link markup's `data-definition` attribute does NOT parse
back to the preview — `String.replace` interprets the `$1` left intact
by `escapeHtml` as a capture-group reference, so the attribute holds
the matched term `Aslan` instead of `$1`. -/
theorem c10_counterexample :
    (extractDataDef
      (annotateHtml [⟨"Aslan".data, "a".data, "$1".data⟩] "p".data
        "Aslan".data).1).map decodeEntities =
      some "Aslan".data ∧
    some "Aslan".data ≠ some "$1".data := by
  refine ⟨by decide, by decide⟩

/-- **C10** (corrected).  `escapeHtml` returns a string containing no
raw double quote and no raw `<` (so the double-quoted attribute cannot
be terminated early and no element can be opened inside it), and
decoding the escaped text recovers exactly the original preview;
moreover, whenever the preview, term, slug and link path contain no
dollar character, the replacement template expands to the link markup
with the matched term as content and the escaped preview intact in the
`data-definition` attribute — so the attribute then parses back to
exactly the original preview.  (For previews containing `$`-patterns
the attribute is corrupted; see the counterexample.) -/
theorem c10_theorem (s : List Char) (t : Term) (pfx m bef aft : List Char)
    (h2 : '$' ∉ t.term) (h3 : '$' ∉ t.slug) (h4 : '$' ∉ t.preview)
    (h5 : '$' ∉ pfx) :
    '"' ∉ escapeHtml s ∧
    '<' ∉ escapeHtml s ∧
    decodeEntities (escapeHtml s) = s ∧
    processDollar m bef aft (linkTemplate pfx t) =
      linkOpen pfx t ++ (m ++ "</a>".data) ∧
    decodeEntities (escapeHtml t.preview) = t.preview :=
  ⟨escapeHtml_noQuote s, escapeHtml_noLt s, decodeEntities_escapeHtml s,
   processDollar_linkTemplate pfx t m bef aft h2 h3 h4 h5,
   decodeEntities_escapeHtml t.preview⟩

/-- Witness for the amended C10 at concrete inputs. -/
theorem c10_witness :
    '"' ∉ escapeHtml "a <b> & \"c\"".data ∧
    '<' ∉ escapeHtml "a <b> & \"c\"".data ∧
    decodeEntities (escapeHtml "a <b> & \"c\"".data) = "a <b> & \"c\"".data ∧
    processDollar "Aslan".data [] []
        (linkTemplate "pages/definitions.html".data aslanTerm) =
      linkOpen "pages/definitions.html".data aslanTerm ++
        ("Aslan".data ++ "</a>".data) ∧
    decodeEntities (escapeHtml aslanTerm.preview) = aslanTerm.preview :=
  c10_theorem "a <b> & \"c\"".data aslanTerm
    "pages/definitions.html".data "Aslan".data [] []
    (by decide) (by decide) (by decide) (by decide)

-- ======================= The DOM model =======================

/-- A DOM node: a text node or an element with tag name, attributes
and children. -/
inductive Node where
  | text : List Char → Node
  | elem : List Char → List ((List Char) × (List Char)) → List Node → Node

/-- First binding of an attribute (as `getAttribute` sees it). -/
def attrVal (name : List Char) :
    List ((List Char) × (List Char)) → Option (List Char)
  | [] => none
  | (k, v) :: rest => if k = name then some v else attrVal name rest

/-- Whether an element carries a class token (the `.definition-link`
part of the walker's `closest('a, .definition-link')` selector,
script.js:282). -/
def hasClass (attrs : List ((List Char) × (List Char)))
    (cls : List Char) : Bool :=
  match attrVal "class".data attrs with
  | some v => (v.splitOn ' ').contains cls
  | none => false

/-- The walker's per-text-node exclusion (script.js:282): the text
node is skipped when some ancestor element matches `a` or
`.definition-link`. -/
def nodeExcluded (tag : List Char)
    (attrs : List ((List Char) × (List Char))) : Bool :=
  tag = "a".data || hasClass attrs "definition-link".data

-- =============== The innerHTML fragment parser ===============

/-- One text run of the fragment parser: characters up to the next
`<`, with character references decoded (see `decodeEntitiesF`).
Step-budgeted; every step consumes at least one character. -/
def takeTextF : Nat → List Char → List Char × List Char
  | _, [] => ([], [])
  | 0, s => ([], s)
  | Nat.succ f, c :: r =>
      if c = '<' then ([], c :: r)
      else if c = '&' then
        if "amp;".data.isPrefixOf r then
          let p := takeTextF f (r.drop 4)
          ('&' :: p.1, p.2)
        else if "lt;".data.isPrefixOf r then
          let p := takeTextF f (r.drop 3)
          ('<' :: p.1, p.2)
        else if "gt;".data.isPrefixOf r then
          let p := takeTextF f (r.drop 3)
          ('>' :: p.1, p.2)
        else if "quot;".data.isPrefixOf r then
          let p := takeTextF f (r.drop 5)
          ('"' :: p.1, p.2)
        else if "nbsp;".data.isPrefixOf r then
          let p := takeTextF f (r.drop 5)
          (Char.ofNat 160 :: p.1, p.2)
        else if r.head? = some '#' then
          let r' := r.drop 1
          let ds := r'.takeWhile Char.isDigit
          let rest := r'.drop ds.length
          if ds.isEmpty then
            let p := takeTextF f r
            ('&' :: p.1, p.2)
          else
            match rest with
            | ';' :: r2 =>
                let p := takeTextF f r2
                (Char.ofNat (digitsVal ds) :: p.1, p.2)
            | _ =>
                let p := takeTextF f r
                ('&' :: p.1, p.2)
        else
          let p := takeTextF f r
          ('&' :: p.1, p.2)
      else
        let p := takeTextF f r
        (c :: p.1, p.2)

/-- A tag-name character. -/
def isTagChar (c : Char) : Bool :=
  asciiLetter c || ('0' ≤ c && c ≤ '9') || c = '-'

/-- Attribute parsing of the fragment parser: skip whitespace, read
`name="value"` pairs (values entity-decoded), stop after the closing
`>`.  Step-budgeted. -/
def parseAttrsF : Nat → List Char →
    List ((List Char) × (List Char)) × List Char
  | _, [] => ([], [])
  | 0, s => ([], s)
  | Nat.succ f, c :: r =>
      if c = '>' then ([], r)
      else if jsSpace c || c = '/' then parseAttrsF f r
      else
        let name := (c :: r).takeWhile
          (fun d => !(d = '=' || d = '>' || jsSpace d))
        let rest := (c :: r).drop name.length
        match rest with
        | '=' :: '"' :: r2 =>
            let v := r2.takeWhile (fun d => d ≠ '"')
            let r3 := r2.drop (v.length + 1)
            let p := parseAttrsF f r3
            ((name, decodeEntities v) :: p.1, p.2)
        | _ =>
            let p := parseAttrsF f rest
            ((name, []) :: p.1, p.2)

/-- The fragment parser behind `span.innerHTML = html`
(script.js:303-305): parse a sequence of nodes; a run returns at a
closing tag (consumed by the enclosing element's parse).
Step-budgeted; `parseFragment` instantiates the budget with the
string length plus one, which always suffices. -/
def parseNodesF : Nat → List Char → List Node × List Char
  | _, [] => ([], [])
  | 0, s => ([], s)
  | Nat.succ f, c :: r =>
      if c = '<' then
        match r with
        | '/' :: _ => ([], c :: r)
        | _ =>
            let name := r.takeWhile isTagChar
            if name.isEmpty then
              let p := parseNodesF f r
              (Node.text ['<'] :: p.1, p.2)
            else
              let a := parseAttrsF f (r.drop name.length)
              let ch := parseNodesF f a.2
              let r4 :=
                if ("</".data ++ name ++ ">".data).isPrefixOf ch.2 then
                  ch.2.drop (name.length + 3)
                else ch.2
              let sib := parseNodesF f r4
              (Node.elem name a.1 ch.1 :: sib.1, sib.2)
      else
        let t := takeTextF (Nat.succ f) (c :: r)
        let sib := parseNodesF f t.2
        (Node.text t.1 :: sib.1, sib.2)

def parseFragment (s : List Char) : List Node :=
  (parseNodesF (s.length + 1) s).1

-- =============== The DOM annotation pass ===============

mutual

/-- The per-root DOM pass of `AutoEnhance.processTextNode`
(script.js:271-308): walk the subtree's text nodes (the walker
collects them before any mutation, so one recursive pass is
equivalent); a text node below an `a` or `.definition-link` ancestor
(`excl`) is skipped; otherwise all registered terms are replaced in
its text and, if anything matched, the node is replaced by a span
whose children are the fragment parsed from the rewritten HTML. -/
def annotateNode (defs : List Term) (pfx : List Char) (excl : Bool) :
    Node → Node
  | Node.text s =>
      if excl then Node.text s
      else
        let r := annotateHtml defs pfx s
        if r.2 then Node.elem "span".data [] (parseFragment r.1)
        else Node.text s
  | Node.elem tag attrs children =>
      Node.elem tag attrs
        (annotateNodes defs pfx (excl || nodeExcluded tag attrs) children)

def annotateNodes (defs : List Term) (pfx : List Char) (excl : Bool) :
    List Node → List Node
  | [] => []
  | n :: ns =>
      annotateNode defs pfx excl n :: annotateNodes defs pfx excl ns

end

/-- The root-level guard of `AutoEnhance.linkDefinitions`
(script.js:247-268): nothing happens on an empty registry, and a
content root inside an anchor or inside a heading `h1`–`h4`
(`el.closest('a')`, `el.closest('h1, h2, h3, h4')`) is skipped
entirely. -/
def linkDefinitions (defs : List Term) (pfx : List Char)
    (rootInAnchor rootInHeading : Bool) (root : Node) : Node :=
  if defs.isEmpty then root
  else if rootInAnchor || rootInHeading then root
  else annotateNode defs pfx false root

mutual

/-- Number of elements with the given tag in a subtree. -/
def countElems (tag : List Char) : Node → Nat
  | Node.text _ => 0
  | Node.elem t _ cs =>
      (if t = tag then 1 else 0) + countElemsList tag cs

def countElemsList (tag : List Char) : List Node → Nat
  | [] => 0
  | n :: ns => countElems tag n + countElemsList tag ns

end

-- ======================= C3 =======================

mutual

theorem annotateNode_excl_id (defs : List Term) (pfx : List Char) :
    ∀ n : Node, annotateNode defs pfx true n = n
  | Node.text s => by simp [annotateNode]
  | Node.elem t a cs => by
      simp [annotateNode, annotateNodes_excl_id defs pfx cs]

theorem annotateNodes_excl_id (defs : List Term) (pfx : List Char) :
    ∀ ns : List Node, annotateNodes defs pfx true ns = ns
  | [] => by simp [annotateNodes]
  | n :: ns => by
      simp [annotateNodes, annotateNode_excl_id defs pfx n,
        annotateNodes_excl_id defs pfx ns]

end

/-- Counterexample to C3 as stated: a paragraph whose only text node
sits inside a `code` element.  The claim says the annotator never
enters code elements, yet one run creates an annotation link there
(the tree has no `a` element before the run and one after, and its
only text is inside the `code` element). -/
theorem c3_counterexample :
    countElems "a".data
      (annotateNode [aslanTerm] "p".data false
        (Node.elem "p".data []
          [Node.elem "code".data [] [Node.text "Aslan".data]])) = 1 ∧
    countElems "a".data
      (Node.elem "p".data []
        [Node.elem "code".data [] [Node.text "Aslan".data]]) = 0 ∧
    (1 : Nat) ≠ 0 := by
  refine ⟨by decide, by decide, by decide⟩

/-- **C3** (corrected).  The exclusions the traversal actually
enforces: a text node with an ancestor that is an anchor or carries
the annotation-link marker class is never rewritten (any subtree
entered under such an exclusion is returned unchanged), and a content
root that lies inside an anchor or inside a heading `h1`–`h4` is
skipped wholesale (as is everything when the registry is empty).
Heading, `code`, `pre` and `script` elements nested inside a content
root are NOT excluded during traversal. -/
theorem c3_theorem :
    (∀ (defs : List Term) (pfx : List Char) (n : Node),
      annotateNode defs pfx true n = n) ∧
    (∀ (defs : List Term) (pfx : List Char) (b1 b2 : Bool) (root : Node),
      (b1 || b2) = true →
      linkDefinitions defs pfx b1 b2 root = root) := by
  constructor
  · intro defs pfx n
    exact annotateNode_excl_id defs pfx n
  · intro defs pfx b1 b2 root h
    unfold linkDefinitions
    by_cases hd : defs.isEmpty
    · rw [if_pos hd]
    · rw [if_neg hd, if_pos h]

/-- Witness for the amended C3. -/
theorem c3_witness :
    annotateNode [aslanTerm] "p".data true
      (Node.elem "em".data [] [Node.text "Aslan".data]) =
      Node.elem "em".data [] [Node.text "Aslan".data] ∧
    linkDefinitions [aslanTerm] "p".data true false
      (Node.text "Aslan".data) = Node.text "Aslan".data :=
  ⟨c3_theorem.1 [aslanTerm] "p".data
    (Node.elem "em".data [] [Node.text "Aslan".data]),
   c3_theorem.2 [aslanTerm] "p".data true false
    (Node.text "Aslan".data) rfl⟩

-- ======================= C2 =======================

/-- A second concrete registry term for the idempotence counterexample. -/
def lionTerm : Term := ⟨"Lion".data, "lion".data, "King".data⟩

/-- Counterexample to C2 as stated: the text node `Lion As&#108;an`.
The first run wraps `Lion`; parsing the rewritten HTML decodes the
character reference `&#108;` to `l`, so the span now holds a text node
` Aslan`.  The second run finds the fresh whole-word occurrence of
the registered term `Aslan` there and wraps it: the second run changes
the DOM and adds a second annotation link (2 links after two runs,
1 after one run). -/
theorem c2_counterexample :
    countElems "a".data
      (annotateNode [lionTerm, aslanTerm] "p".data false
        (annotateNode [lionTerm, aslanTerm] "p".data false
          (Node.elem "p".data [] [Node.text "Lion As&#108;an".data]))) = 2 ∧
    countElems "a".data
      (annotateNode [lionTerm, aslanTerm] "p".data false
        (Node.elem "p".data [] [Node.text "Lion As&#108;an".data])) = 1 ∧
    (2 : Nat) ≠ 1 := by
  refine ⟨by decide, by decide, by decide⟩

-- ============ C2: single-term idempotence of the pass ============

/-- Reference form of the global-regex scan: on a match, jump directly
past the matched term (equal to `scanSkip` — proved below — and more
convenient for reasoning). -/
def scanRef (t : List Char) (w : Bool) (s : List Char) : List Piece :=
  match s with
  | [] => []
  | c :: r =>
      if h : matchHere w t (c :: r) then
        Piece.hit :: scanRef t (wOpt t.getLast?) ((c :: r).drop t.length)
      else
        Piece.lit c :: scanRef t (wordC c) r
termination_by s.length
decreasing_by
  · simp only [matchHere, Bool.and_eq_true, Bool.not_eq_true'] at h
    have ht : t ≠ [] := by
      intro he
      rw [he] at h
      simp at h
    have : 1 ≤ t.length := by
      cases t with
      | nil => exact absurd rfl ht
      | cons a b => simp
    simp only [List.length_drop, List.length_cons]
    omega
  · simp

/-- The word-ness context after walking a list of characters. -/
def ctxAfter (w : Bool) : List Char → Bool
  | [] => w
  | c :: l => ctxAfter (wordC c) l

theorem matchHere_ne_nil (w : Bool) (t s : List Char)
    (h : matchHere w t s = true) : t ≠ [] := by
  simp only [matchHere, Bool.and_eq_true, Bool.not_eq_true'] at h
  intro he
  rw [he] at h
  simp at h

theorem matchHere_prefix (w : Bool) (t s : List Char)
    (h : matchHere w t s = true) : t <+: s := by
  simp only [matchHere, Bool.and_eq_true] at h
  exact List.isPrefixOf_iff_prefix.mp h.1.1.2

theorem ctxAfter_getLast (w : Bool) (l : List Char) (hne : l ≠ []) :
    ctxAfter w l = wOpt l.getLast? := by
  induction l generalizing w with
  | nil => exact absurd rfl hne
  | cons c l' ih =>
      rcases l' with _ | ⟨d, l2⟩
      · simp [ctxAfter, wOpt]
      · rw [ctxAfter, ih (wordC c) (by simp)]
        rw [List.getLast?_cons_cons]

theorem scanSkip_eq_scanRef (t : List Char) (s : List Char) :
    ∀ (k : Nat) (w : Bool),
    scanSkip t w k s = scanRef t (ctxAfter w (s.take k)) (s.drop k) := by
  induction s with
  | nil => intro k w; cases k <;> simp [scanSkip, scanRef, ctxAfter]
  | cons c r ih =>
      intro k w
      match k with
      | Nat.succ k2 =>
          show scanSkip t (wordC c) k2 r = _
          rw [ih k2 (wordC c)]
          rfl
      | 0 =>
          simp only [List.take_zero, List.drop_zero, ctxAfter]
          rw [scanSkip, scanRef]
          by_cases h : matchHere w t (c :: r)
          · rw [if_pos h, dif_pos h]
            have hne := matchHere_ne_nil w t (c :: r) h
            obtain ⟨tail, htail⟩ := matchHere_prefix w t (c :: r) h
            rcases t with _ | ⟨t0, t1⟩
            · exact absurd rfl hne
            · simp only [List.cons_append, List.cons.injEq] at htail
              obtain ⟨hc0, hr⟩ := htail
              have hdrop : (c :: r).drop (t0 :: t1).length =
                  r.drop t1.length := by
                simp [List.length_cons]
              have hlen1 : (t0 :: t1).length - 1 = t1.length := by simp
              rw [hdrop, hlen1, ih t1.length (wordC c)]
              have htake : r.take t1.length = t1 := by
                rw [← hr]
                simp
              rw [htake]
              have hctx : ctxAfter (wordC c) t1 =
                  wOpt (t0 :: t1).getLast? := by
                rcases t1 with _ | ⟨u, t2⟩
                · simp [ctxAfter, wOpt, hc0]
                · rw [ctxAfter_getLast (wordC c) (u :: t2) (by simp),
                    List.getLast?_cons_cons]
              rw [hctx]
          · rw [if_neg h, dif_neg h]
            rw [ih 0 (wordC c)]
            rfl

/-- The two scan formulations agree on whole text nodes. -/
theorem wwPieces_eq_scanRef (t s : List Char) :
    wwPieces t s = scanRef t false s := by
  have := scanSkip_eq_scanRef t s 0 false
  simpa [wwPieces, ctxAfter] using this

/-- The leading run of literal characters of a match decomposition. -/
def litChunk : List Piece → List Char
  | Piece.lit c :: ps => c :: litChunk ps
  | _ => []

/-- The decomposition after its leading literal run (empty, or a hit
followed by the rest). -/
def afterChunk : List Piece → List Piece
  | Piece.lit _ :: ps => afterChunk ps
  | ps => ps

theorem litChunk_cons_lit (c : Char) (ps : List Piece) :
    litChunk (Piece.lit c :: ps) = c :: litChunk ps := rfl

theorem litChunk_cons_hit (ps : List Piece) :
    litChunk (Piece.hit :: ps) = [] := rfl

theorem afterChunk_cons_lit (c : Char) (ps : List Piece) :
    afterChunk (Piece.lit c :: ps) = afterChunk ps := rfl

theorem afterChunk_cons_hit (ps : List Piece) :
    afterChunk (Piece.hit :: ps) = Piece.hit :: ps := rfl

theorem afterChunk_length (ps : List Piece) :
    (afterChunk ps).length ≤ ps.length := by
  induction ps with
  | nil => simp [afterChunk]
  | cons p ps' ih =>
      cases p with
      | lit c =>
          rw [afterChunk_cons_lit]
          simp only [List.length_cons]
          omega
      | hit => rw [afterChunk_cons_hit]

theorem afterChunk_head_hit (ps : List Piece) (p : Piece)
    (tail : List Piece) (h : afterChunk ps = p :: tail) :
    p = Piece.hit := by
  induction ps with
  | nil => simp [afterChunk] at h
  | cons q ps' ih =>
      cases q with
      | lit c => rw [afterChunk_cons_lit] at h; exact ih h
      | hit =>
          rw [afterChunk_cons_hit] at h
          cases h
          rfl

/-- The text chunks (maximal literal runs) of a decomposition, in
order; empty chunks included. -/
def chunksOf (ps : List Piece) : List (List Char) :=
  litChunk ps ::
    (match h : afterChunk ps with
     | [] => []
     | _ :: ps' => chunksOf ps')
termination_by ps.length
decreasing_by
  have h1 := afterChunk_length ps
  rw [h] at h1
  simp only [List.length_cons] at h1
  omega

theorem chunksOf_cons_lit (c : Char) (ps : List Piece) :
    chunksOf (Piece.lit c :: ps) =
      (c :: litChunk ps) :: (chunksOf ps).tail := by
  conv_lhs => rw [chunksOf]
  conv_rhs => rw [chunksOf]
  rfl

theorem chunksOf_cons_hit (ps : List Piece) :
    chunksOf (Piece.hit :: ps) = [] :: chunksOf ps := by
  rw [chunksOf]
  rfl

theorem chunksOf_nil : chunksOf [] = [[]] := by
  rw [chunksOf]
  rfl

theorem flattenP_chunk (t : List Char) (ps : List Piece) :
    flattenP t ps = litChunk ps ++ flattenP t (afterChunk ps) := by
  induction ps with
  | nil => simp [flattenP, litChunk, afterChunk]
  | cons p ps' ih =>
      cases p with
      | lit c =>
          show c :: flattenP t ps' = _
          rw [litChunk_cons_lit, afterChunk_cons_lit, ih]
          rfl
      | hit => rfl

theorem litChunk_mem (c : Char) (ps : List Piece)
    (h : c ∈ litChunk ps) : Piece.lit c ∈ ps := by
  induction ps with
  | nil => simp [litChunk] at h
  | cons p ps' ih =>
      cases p with
      | lit d =>
          rw [litChunk_cons_lit] at h
          rcases List.mem_cons.mp h with h | h
          · subst h; simp
          · exact List.mem_cons_of_mem _ (ih h)
      | hit => rw [litChunk_cons_hit] at h; cases h

theorem afterChunk_sub (ps : List Piece) (p : Piece)
    (h : p ∈ afterChunk ps) : p ∈ ps := by
  induction ps with
  | nil => simp [afterChunk] at h
  | cons q ps' ih =>
      cases q with
      | lit c =>
          rw [afterChunk_cons_lit] at h
          exact List.mem_cons_of_mem _ (ih h)
      | hit => exact h

theorem lit_mem_flattenP (t : List Char) (c : Char) (ps : List Piece)
    (h : Piece.lit c ∈ ps) : c ∈ flattenP t ps := by
  induction ps with
  | nil => simp at h
  | cons p ps' ih =>
      cases p with
      | lit d =>
          rcases List.mem_cons.mp h with h | h
          · cases h; simp [flattenP]
          · show c ∈ d :: flattenP t ps'
            exact List.mem_cons_of_mem _ (ih h)
      | hit =>
          rcases List.mem_cons.mp h with h | h
          · cases h
          · show c ∈ t ++ flattenP t ps'
            exact List.mem_append_right _ (ih h)

theorem litChunk_nil : litChunk [] = [] := rfl

theorem afterChunk_nil : afterChunk [] = [] := rfl

theorem chunksOf_eq_cons (ps : List Piece) :
    chunksOf ps = litChunk ps :: (chunksOf ps).tail := by
  conv_lhs => rw [chunksOf]
  conv_rhs => rw [chunksOf]
  rfl

theorem scanRef_nil (t : List Char) (w : Bool) : scanRef t w [] = [] := by
  rw [scanRef]

theorem scanRef_hit (t : List Char) (w : Bool) (c : Char) (r : List Char)
    (h : matchHere w t (c :: r) = true) :
    scanRef t w (c :: r) =
      Piece.hit :: scanRef t (wOpt t.getLast?) ((c :: r).drop t.length) := by
  rw [scanRef]
  simp [h]

theorem scanRef_lit (t : List Char) (w : Bool) (c : Char) (r : List Char)
    (h : matchHere w t (c :: r) = false) :
    scanRef t w (c :: r) = Piece.lit c :: scanRef t (wordC c) r := by
  rw [scanRef]
  simp [h]

theorem wOpt_head_allWord (t : List Char) (ht : t ≠ [])
    (hw : ∀ c ∈ t, wordC c = true) : wOpt t.head? = true := by
  cases t with
  | nil => exact absurd rfl ht
  | cons c r => simpa [wOpt] using hw c (List.mem_cons_self c r)

theorem wOpt_getLast_allWord (t : List Char) (ht : t ≠ [])
    (hw : ∀ c ∈ t, wordC c = true) : wOpt t.getLast? = true := by
  rw [List.getLast?_eq_getLast t ht]
  show wordC (t.getLast ht) = true
  exact hw _ (List.getLast_mem ht)

theorem matchHere_parts (w : Bool) (t s : List Char)
    (h : matchHere w t s = true) :
    t.isPrefixOf s = true ∧ w ≠ wOpt t.head? ∧
      wOpt t.getLast? ≠ wOpt (s.drop t.length).head? := by
  simp only [matchHere, Bool.and_eq_true, bne_iff_ne, ne_eq] at h
  exact ⟨h.1.1.2, h.1.2, h.2⟩

theorem matchHere_w_false (t : List Char) (ht : t ≠ [])
    (hw : ∀ c ∈ t, wordC c = true) (w : Bool) (s : List Char)
    (h : matchHere w t s = true) : w = false := by
  have hp := (matchHere_parts w t s h).2.1
  rw [wOpt_head_allWord t ht hw] at hp
  cases w
  · rfl
  · exact absurd rfl hp

theorem matchHere_tail (t : List Char) (ht : t ≠ [])
    (hw : ∀ c ∈ t, wordC c = true) (w : Bool) (s : List Char)
    (h : matchHere w t s = true) (d : Char) (r2 : List Char)
    (hd : s.drop t.length = d :: r2) : wordC d = false := by
  have hp := (matchHere_parts w t s h).2.2
  rw [wOpt_getLast_allWord t ht hw, hd] at hp
  simp only [List.head?_cons] at hp
  have hp2 : (true : Bool) ≠ wordC d := hp
  cases hq : wordC d
  · rfl
  · exact absurd hq.symm hp2

theorem matchHere_nonword_head (t : List Char)
    (hw : ∀ c ∈ t, wordC c = true) (w : Bool) (c : Char) (r : List Char)
    (hc : wordC c = false) : matchHere w t (c :: r) = false := by
  cases hm : matchHere w t (c :: r)
  · rfl
  · exfalso
    have hne := matchHere_ne_nil w t (c :: r) hm
    have hp := matchHere_prefix w t (c :: r) hm
    rcases t with _ | ⟨t0, t1⟩
    · exact hne rfl
    · obtain ⟨tail, htail⟩ := hp
      simp only [List.cons_append, List.cons.injEq] at htail
      have h0 : t0 = c := htail.1
      have hwt := hw t0 (List.mem_cons_self _ _)
      rw [h0] at hwt
      rw [hwt] at hc
      exact Bool.noConfusion hc

theorem scanRef_swap (t : List Char) (hw : ∀ c ∈ t, wordC c = true)
    (d : Char) (hd : wordC d = false) (L : List Char) (X Y : Bool) :
    scanRef t X (d :: L) = scanRef t Y (d :: L) := by
  rw [scanRef_lit t X d L (matchHere_nonword_head t hw X d L hd),
    scanRef_lit t Y d L (matchHere_nonword_head t hw Y d L hd)]

theorem flattenP_scanRef (t : List Char) (w : Bool) (s : List Char) :
    flattenP t (scanRef t w s) = s := by
  have h := scanSkip_eq_scanRef t s 0 w
  simp only [List.take_zero, List.drop_zero, ctxAfter] at h
  rw [← h]
  simpa using flattenP_scanSkip t s w 0

/-- Context before every match the scan finds is a non-word position:
if the leading literal run before the first match is empty the
incoming context itself is non-word, otherwise the run's last
character is a non-word character. -/
theorem hitCtx (t : List Char) (ht : t ≠ [])
    (hw : ∀ c ∈ t, wordC c = true) :
    ∀ (w : Bool) (s : List Char),
    ∀ ps2, afterChunk (scanRef t w s) = Piece.hit :: ps2 →
    (litChunk (scanRef t w s) = [] → w = false) ∧
    (∀ d, (litChunk (scanRef t w s)).getLast? = some d →
      wordC d = false) := by
  intro w s
  induction w, s using scanRef.induct t with
  | case1 w =>
      intro ps2 hA
      rw [scanRef_nil] at hA
      replace hA : ([] : List Piece) = Piece.hit :: ps2 := hA
      exact List.noConfusion hA
  | case2 w c r h ih =>
      intro ps2 hA
      rw [scanRef_hit t w c r h] at hA ⊢
      constructor
      · intro _
        exact matchHere_w_false t ht hw w _ h
      · intro d hd
        rw [litChunk_cons_hit] at hd
        simp at hd
  | case3 w c r h ih =>
      have hm : matchHere w t (c :: r) = false := by
        revert h
        cases matchHere w t (c :: r) <;> simp
      intro ps2 hA
      rw [scanRef_lit t w c r hm] at hA ⊢
      rw [afterChunk_cons_lit] at hA
      rw [litChunk_cons_lit]
      constructor
      · intro hlc
        exact List.noConfusion hlc
      · intro d hd
        cases hlq : litChunk (scanRef t (wordC c) r) with
        | nil =>
            rw [hlq] at hd
            simp only [List.getLast?_singleton, Option.some.injEq] at hd
            rw [← hd]
            exact (ih ps2 hA).1 hlq
        | cons x xs =>
            rw [hlq, List.getLast?_cons_cons] at hd
            rw [← hlq] at hd
            exact (ih ps2 hA).2 d hd

/-- The crux of idempotence on the scan side: when the scan finds no
match at a position, re-testing that position against only the literal
run that follows it (the text chunk a second pass would see) still
finds no match. -/
theorem noNewMatch (t : List Char) (ht : t ≠ [])
    (hw : ∀ c ∈ t, wordC c = true) (w : Bool) (c : Char) (r : List Char)
    (hm : matchHere w t (c :: r) = false) :
    matchHere w t (c :: litChunk (scanRef t (wordC c) r)) = false := by
  cases hx : matchHere w t (c :: litChunk (scanRef t (wordC c) r))
  · rfl
  · exfalso
    have hr : c :: r =
        (c :: litChunk (scanRef t (wordC c) r)) ++
          flattenP t (afterChunk (scanRef t (wordC c) r)) := by
      have h1 : flattenP t (scanRef t (wordC c) r) = r :=
        flattenP_scanRef t (wordC c) r
      rw [flattenP_chunk] at h1
      rw [List.cons_append, h1]
    obtain ⟨hpre, hwc, htr⟩ := matchHere_parts w t _ hx
    have hpre2 : t <+: c :: litChunk (scanRef t (wordC c) r) :=
      List.isPrefixOf_iff_prefix.mp hpre
    rcases hdrop : (c :: litChunk (scanRef t (wordC c) r)).drop t.length
      with _ | ⟨d, ds⟩
    · -- the tested occurrence ends exactly at the chunk end
      have hlen : (c :: litChunk (scanRef t (wordC c) r)).length ≤
          t.length := by
        have := congrArg List.length hdrop
        simp only [List.length_drop, List.length_nil] at this
        omega
      have hteq : t = c :: litChunk (scanRef t (wordC c) r) :=
        List.IsPrefix.eq_of_length_le hpre2 hlen
      rcases hF : afterChunk (scanRef t (wordC c) r) with _ | ⟨p, ps2⟩
      · -- no match follows the chunk: the whole rest was the chunk
        rw [hF] at hr
        simp only [flattenP, List.append_nil] at hr
        rw [← hr] at hx
        rw [hx] at hm
        exact Bool.noConfusion hm
      · -- a match follows: its left context must be non-word, yet it is
        -- the last character of `t`
        have hp : p = Piece.hit := afterChunk_head_hit _ p ps2 hF
        rw [hp] at hF
        have hctx := hitCtx t ht hw (wordC c) r ps2 hF
        cases hlq : litChunk (scanRef t (wordC c) r) with
        | nil =>
            have hcw : wordC c = true := by
              apply hw
              rw [hteq, hlq]
              simp
            have := hctx.1 hlq
            rw [hcw] at this
            exact Bool.noConfusion this
        | cons x xs =>
            have hne2 : (x :: xs : List Char) ≠ [] := by simp
            have hg := List.getLast?_eq_getLast (x :: xs) hne2
            have hgl := hctx.2 ((x :: xs).getLast hne2) (by rw [hlq, hg])
            have hmem : (x :: xs).getLast hne2 ∈ t := by
              rw [hteq, hlq]
              exact List.mem_cons_of_mem _ (List.getLast_mem hne2)
            have := hw _ hmem
            rw [hgl] at this
            exact Bool.noConfusion this
    · -- the tested occurrence ends inside the chunk: the original scan
      -- would have found the very same match
      have hlen : t.length ≤
          (c :: litChunk (scanRef t (wordC c) r)).length := by
        by_contra hcon
        push_neg at hcon
        have : (c :: litChunk (scanRef t (wordC c) r)).drop t.length =
            [] := by
          apply List.drop_eq_nil_of_le
          omega
        rw [this] at hdrop
        exact List.noConfusion hdrop
      have hfull : matchHere w t (c :: r) = true := by
        have hpre3 : t <+: c :: r := by
          rw [hr]
          exact hpre2.trans (List.prefix_append _ _)
        have hdrop2 : (c :: r).drop t.length =
            (d :: ds) ++
              flattenP t (afterChunk (scanRef t (wordC c) r)) := by
          rw [hr, List.drop_append_of_le_length hlen, hdrop]
      
        simp only [matchHere, Bool.and_eq_true, bne_iff_ne, ne_eq]
        refine ⟨⟨⟨?_, ?_⟩, ?_⟩, ?_⟩
        · simp [List.isEmpty_eq_true, ht]
        · exact List.isPrefixOf_iff_prefix.mpr hpre3
        · exact hwc
        · rw [hdrop2]
          simp only [List.cons_append, List.head?_cons]
          rw [hdrop] at htr
          simpa using htr
      rw [hfull] at hm
      exact Bool.noConfusion hm

theorem hitCount_map_lit (l : List Char) :
    hitCount (l.map Piece.lit) = 0 := by
  induction l with
  | nil => rfl
  | cons c r ih =>
      rw [List.map_cons]
      exact ih

/-- Re-scanning the text chunks a first pass leaves between (and
around) its matches finds nothing: every chunk of the decomposition
re-scans to all-literal pieces.  The head chunk re-scans under the
pass's own incoming context, the later chunks under a fresh start. -/
theorem chunksRescan (t : List Char) (ht : t ≠ [])
    (hw : ∀ c ∈ t, wordC c = true) :
    ∀ (w : Bool) (s : List Char),
    (∀ ch ∈ (chunksOf (scanRef t w s)).tail,
        scanRef t false ch = ch.map Piece.lit) ∧
    scanRef t w (litChunk (scanRef t w s)) =
      (litChunk (scanRef t w s)).map Piece.lit := by
  intro w s
  induction w, s using scanRef.induct t with
  | case1 w =>
      rw [scanRef_nil]
      constructor
      · intro ch hch
        rw [chunksOf_nil] at hch
        simp at hch
      · rw [litChunk_nil, scanRef_nil]
        rfl
  | case2 w c r h ih =>
      rw [scanRef_hit t w c r h]
      constructor
      · intro ch hch
        rw [chunksOf_cons_hit] at hch
        simp only [List.tail_cons] at hch
        rw [chunksOf_eq_cons] at hch
        rcases List.mem_cons.mp hch with hch | hch
        · -- the chunk right after the match; the match's trailing
          -- boundary makes its first character non-word
          rw [hch]
          rcases hR : (c :: r).drop t.length with _ | ⟨d, r2⟩
          · rw [scanRef_nil, litChunk_nil, scanRef_nil]
            rfl
          · have hd : wordC d = false := matchHere_tail t ht hw w _ h d r2 hR
            have hstep := scanRef_lit t (wOpt t.getLast?) d r2
              (matchHere_nonword_head t hw _ d r2 hd)
            rw [hstep, litChunk_cons_lit]
            rw [hR, hstep, litChunk_cons_lit] at ih
            rw [scanRef_swap t hw d hd _ false (wOpt t.getLast?)]
            exact ih.2
        · exact ih.1 ch hch
      · rw [litChunk_cons_hit, scanRef_nil]
        rfl
  | case3 w c r h ih =>
      have hm : matchHere w t (c :: r) = false := by
        revert h
        cases matchHere w t (c :: r) <;> simp
      rw [scanRef_lit t w c r hm]
      constructor
      · intro ch hch
        rw [chunksOf_cons_lit] at hch
        simp only [List.tail_cons] at hch
        exact ih.1 ch hch
      · rw [litChunk_cons_lit]
        have hnm := noNewMatch t ht hw w c r hm
        rw [scanRef_lit t w c _ hnm, List.map_cons]
        exact congrArg _ ih.2

/-- Every text chunk of a first pass's decomposition contains no match:
the registered regex tests false on it. -/
theorem chunksNoHit (t : List Char) (ht : t ≠ [])
    (hw : ∀ c ∈ t, wordC c = true) (s : List Char) :
    ∀ ch ∈ chunksOf (wwPieces t s), hasMatch t ch = false := by
  intro ch hch
  rw [wwPieces_eq_scanRef] at hch
  have hml := chunksRescan t ht hw false s
  have hre : scanRef t false ch = ch.map Piece.lit := by
    rw [chunksOf_eq_cons] at hch
    rcases List.mem_cons.mp hch with hch | hch
    · rw [hch]
      exact hml.2
    · exact hml.1 ch hch
  rw [hasMatch, wwPieces_eq_scanRef, hre, hitCount_map_lit]
  rfl

theorem decodeEntitiesF_no_amp (v : List Char) (hv : '&' ∉ v) :
    ∀ f, decodeEntitiesF f v = v := by
  induction v with
  | nil => intro f; cases f <;> rfl
  | cons c r ih =>
      intro f
      cases f with
      | zero => rfl
      | succ f2 =>
          have hc : ¬ c = '&' := by
            intro e
            exact hv (e ▸ List.mem_cons_self c r)
          simp only [decodeEntitiesF]
          rw [if_neg hc, ih (fun hm => hv (List.mem_cons_of_mem _ hm)) f2]

theorem decodeEntities_no_amp (v : List Char) (hv : '&' ∉ v) :
    decodeEntities v = v := by
  rw [decodeEntities, decodeEntitiesF_no_amp v hv]

/-- A text run without markup-significant characters is consumed
verbatim by the fragment parser's text scanner, which stops exactly at
the following tag opener (or at the end of the input). -/
theorem takeTextF_run (u : List Char) (hu : ∀ c ∈ u, c ≠ '<' ∧ c ≠ '&') :
    ∀ (f : Nat), u.length ≤ f →
    ∀ v : List Char, (v = [] ∨ ∃ w2, v = '<' :: w2) →
    takeTextF f (u ++ v) = (u, v) := by
  induction u with
  | nil =>
      intro f hf v hv
      rcases hv with rfl | ⟨w2, rfl⟩
      · cases f <;> rfl
      · cases f with
        | zero => rfl
        | succ f2 => simp [takeTextF]
  | cons c u2 ih =>
      intro f hf v hv
      cases f with
      | zero => simp at hf
      | succ f2 =>
          have hc := hu c (List.mem_cons_self _ _)
          have hu2 : ∀ d ∈ u2, d ≠ '<' ∧ d ≠ '&' :=
            fun d hd => hu d (List.mem_cons_of_mem _ hd)
          show takeTextF (Nat.succ f2) (c :: (u2 ++ v)) = _
          simp only [takeTextF]
          rw [if_neg hc.1, if_neg hc.2]
          have hlen : u2.length ≤ f2 := by
            simp only [List.length_cons] at hf
            omega
          rw [ih hu2 f2 hlen v hv]

theorem parseAttrsF_gt (f : Nat) (rest : List Char) :
    parseAttrsF (f + 1) ('>' :: rest) = ([], rest) := by
  show parseAttrsF (Nat.succ f) ('>' :: rest) = ([], rest)
  simp [parseAttrsF]

/-- One `name="value"` pair (preceded by a single space, as in the
link template) is read off by the attribute parser: the name up to
`=`, the value up to the closing quote (entity-decoded), two fuel
ticks consumed. -/
theorem parseAttrsF_attr (f : Nat) (nm v rest : List Char)
    (hnm : nm ≠ [])
    (hp : ∀ x ∈ nm, (!(x = '=' || x = '>' || jsSpace x)) = true)
    (hsl : '/' ∉ nm)
    (hv : '"' ∉ v) :
    parseAttrsF (f + 2)
        (' ' :: (nm ++ ('=' :: '"' :: (v ++ '"' :: rest)))) =
      ((nm, decodeEntities v) :: (parseAttrsF f rest).1,
        (parseAttrsF f rest).2) := by
  show parseAttrsF (Nat.succ (Nat.succ f)) _ = _
  rw [parseAttrsF]
  rw [if_neg (by decide), if_pos (by decide)]
  rcases nm with _ | ⟨n0, nm2⟩
  · exact absurd rfl hnm
  · have hn0 := hp n0 (List.mem_cons_self _ _)
    simp only [Bool.not_eq_true', Bool.or_eq_false_iff,
      decide_eq_false_iff_not] at hn0
    have hnsl : n0 ≠ '/' := fun e => hsl (e ▸ List.mem_cons_self _ _)
    rw [List.cons_append]
    rw [parseAttrsF]
    rw [if_neg hn0.1.2]
    rw [if_neg (by simp [hn0.2, hnsl])]
    rw [(List.cons_append n0 nm2 _).symm]
    have hstop1 : ((fun d => !(d = '=' || d = '>' || jsSpace d)) '=' : Bool)
        = false := by decide
    have htw := takeWhile_append_all
      (fun d => !(d = '=' || d = '>' || jsSpace d)) (n0 :: nm2)
      ('=' :: '"' :: (v ++ '"' :: rest)) hp hstop1
    rw [htw.1]
    simp only [List.drop_left]
    have hstop2 : ((fun d => d ≠ '"') '"' : Bool) = false := by decide
    have htv := takeWhile_append_all (fun d => d ≠ '"') v
      ('"' :: rest)
      (by
        intro x hx
        simp only [decide_eq_true_eq]
        exact fun e => hv (e ▸ hx))
      hstop2
    rw [htv.1]
    have hdrop3 : (v ++ '"' :: rest).drop (v.length + 1) = rest := by
      have hsh : v ++ '"' :: rest = (v ++ ['"']) ++ rest := by simp
      have hlen : v.length + 1 = (v ++ ['"']).length := by simp
      rw [hsh, hlen, List.drop_left]
    rw [hdrop3]

/-- The four attributes of the generated link markup, as the fragment
parser reads them off the tag: `href` (the link path, hash and slug),
the marker class, the term name and the escaped preview (decoded back
to the raw preview). -/
theorem parseAttrsF_link (f : Nat) (pfx : List Char) (t : Term)
    (rest : List Char)
    (hqx : '"' ∉ pfx) (hqs : '"' ∉ t.slug)
    (hax : '&' ∉ pfx) (has : '&' ∉ t.slug)
    (hqt : '"' ∉ t.term) (hat : '&' ∉ t.term) :
    parseAttrsF (f + 9)
      (' ' :: ("href".data ++ ('=' :: '"' :: ((pfx ++ '#' :: t.slug) ++ '"' ::
        (' ' :: ("class".data ++ ('=' :: '"' :: ("definition-link".data ++ '"' ::
        (' ' :: ("data-term".data ++ ('=' :: '"' :: (t.term ++ '"' ::
        (' ' :: ("data-definition".data ++ ('=' :: '"' ::
          ((escapeHtml t.preview) ++ '"' :: ('>' :: rest))))))))))))))))) =
      ([("href".data, pfx ++ '#' :: t.slug),
        ("class".data, "definition-link".data),
        ("data-term".data, t.term),
        ("data-definition".data, t.preview)], rest) := by
  have hvq : '"' ∉ pfx ++ '#' :: t.slug := by
    intro hm
    rcases List.mem_append.mp hm with hm | hm
    · exact hqx hm
    · rcases List.mem_cons.mp hm with hm | hm
      · exact absurd hm.symm (by decide)
      · exact hqs hm
  have hva : '&' ∉ pfx ++ '#' :: t.slug := by
    intro hm
    rcases List.mem_append.mp hm with hm | hm
    · exact hax hm
    · rcases List.mem_cons.mp hm with hm | hm
      · exact absurd hm.symm (by decide)
      · exact has hm
  have e1 : f + 9 = (f + 7) + 2 := by omega
  rw [e1, parseAttrsF_attr (f + 7) "href".data (pfx ++ '#' :: t.slug) _
    (by decide) (by decide) (by decide) hvq]
  have e2 : f + 7 = (f + 5) + 2 := by omega
  rw [e2, parseAttrsF_attr (f + 5) "class".data "definition-link".data _
    (by decide) (by decide) (by decide) (by decide)]
  have e3 : f + 5 = (f + 3) + 2 := by omega
  rw [e3, parseAttrsF_attr (f + 3) "data-term".data t.term _
    (by decide) (by decide) (by decide) hqt]
  have e4 : f + 3 = (f + 1) + 2 := by omega
  rw [e4, parseAttrsF_attr (f + 1) "data-definition".data
    (escapeHtml t.preview) _
    (by decide) (by decide) (by decide) (escapeHtml_noQuote t.preview)]
  rw [parseAttrsF_gt]
  rw [decodeEntities_no_amp _ hva,
    decodeEntities_no_amp "definition-link".data (by decide),
    decodeEntities_no_amp t.term hat,
    decodeEntities_escapeHtml]

theorem lit_A : "<a href=\"".data = ['<', 'a', ' ', 'h', 'r', 'e', 'f', '=', '\"'] := rfl

theorem lit_B : "\" class=\"definition-link\" data-term=\"".data = ['\"', ' ', 'c', 'l', 'a', 's', 's', '=', '\"', 'd', 'e', 'f', 'i', 'n', 'i', 't', 'i', 'o', 'n', '-', 'l', 'i', 'n', 'k', '\"', ' ', 'd', 'a', 't', 'a', '-', 't', 'e', 'r', 'm', '=', '\"'] := rfl

theorem lit_C : "\" data-definition=\"".data = ['\"', ' ', 'd', 'a', 't', 'a', '-', 'd', 'e', 'f', 'i', 'n', 'i', 't', 'i', 'o', 'n', '=', '\"'] := rfl

theorem lit_D : "\">".data = ['\"', '>'] := rfl

theorem lit_hash : "#".data = ['#'] := rfl

theorem lit_href : "href".data = ['h', 'r', 'e', 'f'] := rfl

theorem lit_class : "class".data = ['c', 'l', 'a', 's', 's'] := rfl

theorem lit_dterm : "data-term".data = ['d', 'a', 't', 'a', '-', 't', 'e', 'r', 'm'] := rfl

theorem lit_ddef : "data-definition".data = ['d', 'a', 't', 'a', '-', 'd', 'e', 'f', 'i', 'n', 'i', 't', 'i', 'o', 'n'] := rfl

theorem lit_dlink : "definition-link".data = ['d', 'e', 'f', 'i', 'n', 'i', 't', 'i', 'o', 'n', '-', 'l', 'i', 'n', 'k'] := rfl

/-- The generated opening-link markup, reshaped into the form the
attribute parser walks: `<a` followed by four space-separated
`name="value"` attributes and the closing `>`. -/
theorem linkOpen_shape (pfx : List Char) (t : Term) (rest0 : List Char) :
    linkOpen pfx t ++ rest0 =
      '<' :: 'a' ::
        (' ' :: ("href".data ++ ('=' :: '"' :: ((pfx ++ '#' :: t.slug) ++ '"' ::
          (' ' :: ("class".data ++ ('=' :: '"' :: ("definition-link".data ++ '"' ::
          (' ' :: ("data-term".data ++ ('=' :: '"' :: (t.term ++ '"' ::
          (' ' :: ("data-definition".data ++ ('=' :: '"' ::
            ((escapeHtml t.preview) ++ '"' :: ('>' :: rest0))))))))))))))))) := by
  rw [linkOpen, lit_A, lit_B, lit_C, lit_D, lit_hash, lit_href, lit_class,
    lit_dterm, lit_ddef, lit_dlink]
  simp only [List.cons_append, List.append_assoc, List.nil_append]

/-- The DOM node the fragment parser produces for one generated link:
an `a` element with the four template attributes (values decoded back
to the raw path, slug, term and preview) containing the matched term
as its text. -/
def aNode (pfx : List Char) (t : Term) : Node :=
  Node.elem "a".data
    [("href".data, pfx ++ '#' :: t.slug),
     ("class".data, "definition-link".data),
     ("data-term".data, t.term),
     ("data-definition".data, t.preview)]
    [Node.text t.term]

theorem parseNodesF_close (g : Nat) (x : List Char) :
    parseNodesF g ('<' :: '/' :: x) = ([], '<' :: '/' :: x) := by
  cases g with
  | zero => rfl
  | succ g2 => simp [parseNodesF]

theorem parseNodesF_textStop (u : List Char) (hu : u ≠ [])
    (huc : ∀ c ∈ u, c ≠ '<' ∧ c ≠ '&') (g : Nat) (hg : u.length ≤ g + 1)
    (x : List Char) :
    parseNodesF (g + 1) (u ++ ('<' :: '/' :: x)) =
      ([Node.text u], '<' :: '/' :: x) := by
  rcases u with _ | ⟨c, u2⟩
  · exact absurd rfl hu
  · have hc := huc c (List.mem_cons_self _ _)
    show parseNodesF (Nat.succ g) (c :: (u2 ++ ('<' :: '/' :: x))) = _
    simp only [parseNodesF]
    rw [if_neg hc.1]
    have htt := takeTextF_run (c :: u2) huc (Nat.succ g)
      (by simpa using hg) ('<' :: '/' :: x) (Or.inr ⟨'/' :: x, rfl⟩)
    rw [List.cons_append] at htt
    rw [htt, parseNodesF_close]

theorem takeWhile_tag_a (X : List Char) :
    ('a' :: ' ' :: X).takeWhile isTagChar = ['a'] := by
  rw [List.takeWhile_cons, if_pos (by decide), List.takeWhile_cons,
    if_neg (by decide)]

/-- The fragment parser on one generated link: it produces exactly the
`a` element with the four template attributes and the term as its
text, consumes the closing `</a>`, and continues with the remainder at
one fuel tick less. -/
theorem parseNodesF_link (f : Nat) (pfx : List Char) (t : Term)
    (rest : List Char)
    (hf9 : 9 ≤ f) (hft : t.term.length ≤ f) (htne : t.term ≠ [])
    (htc : ∀ c ∈ t.term, c ≠ '<' ∧ c ≠ '&')
    (hqx : '"' ∉ pfx) (hqs : '"' ∉ t.slug)
    (hax : '&' ∉ pfx) (has : '&' ∉ t.slug)
    (hqt : '"' ∉ t.term) (hat : '&' ∉ t.term) :
    parseNodesF (f + 1) (linkOpen pfx t ++ (t.term ++ ("</a>".data ++ rest))) =
      (aNode pfx t :: (parseNodesF f rest).1, (parseNodesF f rest).2) := by
  obtain ⟨f9, rfl⟩ : ∃ f9, f = f9 + 9 := ⟨f - 9, by omega⟩
  rw [linkOpen_shape]
  show parseNodesF (Nat.succ (f9 + 9)) _ = _
  simp only [parseNodesF]
  rw [if_pos trivial]
  split
  · next heq =>
      exfalso
      injection heq with h1 _
      exact absurd h1 (by decide)
  · rw [takeWhile_tag_a]
    rw [if_neg (by decide)]
    simp only [List.length_singleton, List.drop_succ_cons, List.drop_zero]
    have hlk := parseAttrsF_link f9 pfx t
      (t.term ++ (['<', '/', 'a', '>'] ++ rest)) hqx hqs hax has hqt hat
    rw [lit_href, lit_class, lit_dterm, lit_ddef, lit_dlink] at hlk
    rw [hlk]
    have hconv : (['<', '/', 'a', '>'] : List Char) ++ rest =
      '<' :: '/' :: ('a' :: '>' :: rest) := rfl
    rw [hconv]
    rw [show f9 + 9 = (f9 + 8) + 1 from rfl]
    rw [parseNodesF_textStop t.term htne htc (f9 + 8) (by omega)
      ('a' :: '>' :: rest)]
    have hpf : ((['<', '/'] ++ ['a'] ++ ['>'] : List Char)).isPrefixOf
        ('<' :: '/' :: 'a' :: '>' :: rest) = true := by
      show (['<', '/', 'a', '>'] : List Char).isPrefixOf
        (['<', '/', 'a', '>'] ++ rest) = true
      exact isPrefixOf_append_self _ _
    have hdr : List.drop (1 + 3) ('<' :: '/' :: 'a' :: '>' :: rest) =
      rest := rfl
    have hdr4 : List.drop 4 ('<' :: '/' :: 'a' :: '>' :: rest) =
      rest := rfl
    have lita : "a".data = ['a'] := rfl
    simp [hpf, hdr, hdr4, aNode, lita, lit_href, lit_class, lit_dterm,
      lit_ddef, lit_dlink]

/-- The node list the fragment parser produces for a rendered match
decomposition: a text node per nonempty text chunk, an `a` element per
match. -/
def piecesNodes (pfx : List Char) (t : Term) (ps : List Piece) :
    List Node :=
  (if litChunk ps = [] then [] else [Node.text (litChunk ps)]) ++
    (if h : afterChunk ps = [] then []
     else aNode pfx t :: piecesNodes pfx t ((afterChunk ps).tail))
termination_by ps.length
decreasing_by
  have h1 := afterChunk_length ps
  rcases hA2 : afterChunk ps with _ | ⟨q, qs⟩
  · exact absurd hA2 h
  · rw [hA2] at h1
    simp only [List.length_cons, List.tail_cons] at h1 ⊢
    omega

theorem renderWrap_chunk (o cl tm : List Char) (ps : List Piece) :
    renderWrap o cl tm ps =
      litChunk ps ++ renderWrap o cl tm (afterChunk ps) := by
  induction ps with
  | nil => rfl
  | cons p ps2 ih =>
      cases p with
      | lit c =>
          show c :: renderWrap o cl tm ps2 = _
          rw [litChunk_cons_lit, afterChunk_cons_lit, ih]
          rfl
      | hit => rfl

theorem litChunk_afterChunk_length (ps : List Piece) :
    (litChunk ps).length + (afterChunk ps).length = ps.length := by
  induction ps with
  | nil => rfl
  | cons p ps2 ih =>
      cases p with
      | lit c =>
          rw [litChunk_cons_lit, afterChunk_cons_lit]
          simp only [List.length_cons]
          omega
      | hit =>
          rw [litChunk_cons_hit, afterChunk_cons_hit]
          simp

theorem parseNodesF_textEnd (u : List Char) (hu : u ≠ [])
    (huc : ∀ c ∈ u, c ≠ '<' ∧ c ≠ '&') (g : Nat) (hg : u.length ≤ g + 1) :
    parseNodesF (g + 1) u = ([Node.text u], []) := by
  rcases u with _ | ⟨c, u2⟩
  · exact absurd rfl hu
  · have hc := huc c (List.mem_cons_self _ _)
    show parseNodesF (Nat.succ g) (c :: u2) = _
    simp only [parseNodesF]
    rw [if_neg hc.1]
    have htt := takeTextF_run (c :: u2) huc (Nat.succ g)
      (by simpa using hg) [] (Or.inl rfl)
    rw [List.append_nil] at htt
    rw [htt]
    have hsib : parseNodesF g ([] : List Char) = ([], []) := by
      cases g <;> rfl
    rw [hsib]

/-- The fragment parser on a whole rendered decomposition (with enough
fuel): text chunks become text nodes, matches become the link
elements, nothing is left over. -/
theorem parse_renderWrap (pfx : List Char) (t : Term)
    (htne : t.term ≠ [])
    (hqx : '"' ∉ pfx) (hqs : '"' ∉ t.slug)
    (hax : '&' ∉ pfx) (has : '&' ∉ t.slug)
    (hqt : '"' ∉ t.term) (hat : '&' ∉ t.term) :
    ∀ (n : Nat) (ps : List Piece), ps.length ≤ n →
    (∀ c, Piece.lit c ∈ ps → c ≠ '<' ∧ c ≠ '&') →
    (∀ c ∈ t.term, c ≠ '<' ∧ c ≠ '&') →
    ∀ f, ps.length + t.term.length + 10 ≤ f →
    parseNodesF f (renderWrap (linkOpen pfx t) "</a>".data t.term ps) =
      (piecesNodes pfx t ps, []) := by
  intro n
  induction n with
  | zero =>
      intro ps hn hchars htc f hf
      have hps : ps = [] := List.length_eq_zero.mp (Nat.le_zero.mp hn)
      subst hps
      have h0 : parseNodesF f ([] : List Char) = ([], []) := by
        cases f <;> rfl
      show parseNodesF f [] = _
      rw [h0, piecesNodes]
      rfl
  | succ n ih =>
      intro ps hn hchars htc f hf
      have hlen := litChunk_afterChunk_length ps
      rcases hA : afterChunk ps with _ | ⟨p, ps2⟩
      · -- no match in the decomposition's remainder
        have hpn : piecesNodes pfx t ps =
            (if litChunk ps = [] then [] else [Node.text (litChunk ps)]) := by
          rw [piecesNodes, dif_pos hA, List.append_nil]
        have hrw0 : renderWrap (linkOpen pfx t) "</a>".data t.term [] =
          [] := rfl
        rw [renderWrap_chunk, hA, hrw0, List.append_nil, hpn]
        rcases hL : litChunk ps with _ | ⟨c, u2⟩
        · have hps : ps = [] := by
            rw [hA, hL] at hlen
            simp only [List.length_nil] at hlen
            exact List.length_eq_zero.mp hlen.symm
          subst hps
          have h0 : parseNodesF f ([] : List Char) = ([], []) := by
            cases f <;> rfl
          rw [h0]
          simp
        · obtain ⟨f2, rfl⟩ : ∃ f2, f = f2 + 1 := ⟨f - 1, by omega⟩
          have hmem : ∀ d ∈ c :: u2, d ≠ '<' ∧ d ≠ '&' := by
            intro d hd
            exact hchars d (litChunk_mem d ps (by rw [hL]; exact hd))
          have hglen : (c :: u2 : List Char).length ≤ f2 + 1 := by
            have : (litChunk ps).length ≤ ps.length := by omega
            rw [hL] at this
            omega
          rw [parseNodesF_textEnd (c :: u2) (by simp) hmem f2 hglen]
          rw [if_neg (by simp)]
      · -- a match follows the leading chunk
        have hp : p = Piece.hit := afterChunk_head_hit ps p ps2 hA
        subst hp
        have hpn : piecesNodes pfx t ps =
            (if litChunk ps = [] then [] else [Node.text (litChunk ps)]) ++
              (aNode pfx t :: piecesNodes pfx t ps2) := by
          rw [piecesNodes, dif_neg (by rw [hA]; simp), hA, List.tail_cons]
        have hrh : renderWrap (linkOpen pfx t) "</a>".data t.term
            (Piece.hit :: ps2) =
            linkOpen pfx t ++ (t.term ++ ("</a>".data ++
              renderWrap (linkOpen pfx t) "</a>".data t.term ps2)) := by
          show ((linkOpen pfx t ++ t.term) ++ "</a>".data) ++ _ = _
          simp [List.append_assoc]
        have hchars2 : ∀ c, Piece.lit c ∈ ps2 → c ≠ '<' ∧ c ≠ '&' := by
          intro c hc
          exact hchars c (afterChunk_sub ps _ (by
            rw [hA]; exact List.mem_cons_of_mem _ hc))
        have hn2 : ps2.length ≤ n := by
          have : (afterChunk ps).length ≤ ps.length := afterChunk_length ps
          rw [hA] at this
          simp only [List.length_cons] at this
          omega
        rw [renderWrap_chunk, hA, hrh, hpn]
        rcases hL : litChunk ps with _ | ⟨c, u2⟩
        · obtain ⟨f2, rfl⟩ : ∃ f2, f = f2 + 1 := ⟨f - 1, by omega⟩
          have hAl : (afterChunk ps).length ≤ ps.length :=
            afterChunk_length ps
          rw [hA] at hAl
          simp only [List.length_cons] at hAl
          rw [List.nil_append]
          rw [parseNodesF_link f2 pfx t _ (by omega) (by omega) htne htc
            hqx hqs hax has hqt hat]
          rw [ih ps2 hn2 hchars2 htc f2 (by omega)]
          rw [if_pos rfl, List.nil_append]
        · obtain ⟨f2, rfl⟩ : ∃ f2, f = f2 + 1 := ⟨f - 1, by omega⟩
          have hmem : ∀ d ∈ c :: u2, d ≠ '<' ∧ d ≠ '&' := by
            intro d hd
            exact hchars d (litChunk_mem d ps (by rw [hL]; exact hd))
          have hc := hmem c (List.mem_cons_self _ _)
          rw [List.cons_append]
          show parseNodesF (Nat.succ f2) (c :: (u2 ++ _)) = _
          simp only [parseNodesF]
          rw [if_neg hc.1]
          have hvshape : ∃ w2, linkOpen pfx t ++ (t.term ++ ("</a>".data ++
              renderWrap (linkOpen pfx t) "</a>".data t.term ps2)) =
              '<' :: w2 := ⟨_, linkOpen_shape pfx t _⟩
          have hglen : (c :: u2 : List Char).length ≤ Nat.succ f2 := by
            have h1 : (litChunk ps).length ≤ ps.length := by omega
            rw [hL] at h1
            omega
          have htt := takeTextF_run (c :: u2) hmem (Nat.succ f2) hglen _
            (Or.inr hvshape)
          rw [List.cons_append] at htt
          rw [htt]
          rw [hL, hA] at hlen
          simp only [List.length_cons] at hlen
          obtain ⟨f4, rfl⟩ : ∃ f4, f2 = f4 + 1 := ⟨f2 - 1, by omega⟩
          rw [parseNodesF_link f4 pfx t _ (by omega) (by omega) htne htc
            hqx hqs hax has hqt hat]
          rw [ih ps2 hn2 hchars2 htc f4 (by omega)]
          rw [if_neg (by simp)]
          rfl

theorem hitCount_le (ps : List Piece) : hitCount ps ≤ ps.length := by
  induction ps with
  | nil => simp [hitCount]
  | cons p ps2 ih =>
      cases p with
      | lit c =>
          show hitCount ps2 ≤ ps2.length + 1
          omega
      | hit =>
          show hitCount ps2 + 1 ≤ ps2.length + 1
          omega

theorem renderWrap_length (o cl tm : List Char) (ps : List Piece) :
    (renderWrap o cl tm ps).length + hitCount ps =
      ps.length + hitCount ps * (o.length + tm.length + cl.length) := by
  induction ps with
  | nil => simp [renderWrap, hitCount]
  | cons p ps2 ih =>
      cases p with
      | lit c =>
          show (renderWrap o cl tm ps2).length + 1 + hitCount ps2 =
            ps2.length + 1 + hitCount ps2 * (o.length + tm.length + cl.length)
          omega
      | hit =>
          show (o ++ tm ++ cl ++ renderWrap o cl tm ps2).length +
              (hitCount ps2 + 1) =
            ps2.length + 1 +
              (hitCount ps2 + 1) * (o.length + tm.length + cl.length)
          simp only [List.length_append, Nat.succ_mul]
          omega

theorem linkOpen_length_ge (pfx : List Char) (t : Term) :
    9 ≤ (linkOpen pfx t).length := by
  rw [linkOpen, lit_A]
  simp [List.length_append]

/-- The fragment parser, at the fuel `parseFragment` actually supplies
(input length plus one), on a rendered decomposition with at least one
match. -/
theorem parseFragment_renderWrap (pfx : List Char) (t : Term)
    (htne : t.term ≠ [])
    (hqx : '"' ∉ pfx) (hqs : '"' ∉ t.slug)
    (hax : '&' ∉ pfx) (has : '&' ∉ t.slug)
    (hqt : '"' ∉ t.term) (hat : '&' ∉ t.term)
    (ps : List Piece)
    (hchars : ∀ c, Piece.lit c ∈ ps → c ≠ '<' ∧ c ≠ '&')
    (htc : ∀ c ∈ t.term, c ≠ '<' ∧ c ≠ '&')
    (hhit : hitCount ps ≠ 0) :
    parseFragment (renderWrap (linkOpen pfx t) "</a>".data t.term ps) =
      piecesNodes pfx t ps := by
  rw [parseFragment]
  rw [parse_renderWrap pfx t htne hqx hqs hax has hqt hat ps.length ps
    (le_refl _) hchars htc _ ?hfuel]
  case hfuel =>
    have hrl := renderWrap_length (linkOpen pfx t) "</a>".data t.term ps
    have hol := linkOpen_length_ge pfx t
    have hcl : ("</a>".data).length = 4 := rfl
    rw [hcl] at hrl
    obtain ⟨hc2, hhc⟩ : ∃ hc2, hitCount ps = hc2 + 1 :=
      ⟨hitCount ps - 1, by omega⟩
    rw [hhc, Nat.succ_mul] at hrl
    have hmul : hc2 ≤ hc2 * ((linkOpen pfx t).length + t.term.length + 4) := by
      calc hc2 = hc2 * 1 := by omega
      _ ≤ hc2 * ((linkOpen pfx t).length + t.term.length + 4) := by
          apply Nat.mul_le_mul_left
          omega
    omega

mutual

/-- Text nodes free of raw markup-significant characters; the
annotator's behaviour on such a subtree is exactly the string-level
rendering followed by the fragment parse characterized above. -/
def niceNode : Node → Bool
  | Node.text s => s.all (fun c => !(c = '<' || c = '&'))
  | Node.elem _ _ cs => niceNodes cs

def niceNodes : List Node → Bool
  | [] => true
  | n :: ns => niceNode n && niceNodes ns

end

theorem annotateNodes_append (defs : List Term) (pfx : List Char)
    (e : Bool) (l1 l2 : List Node) :
    annotateNodes defs pfx e (l1 ++ l2) =
      annotateNodes defs pfx e l1 ++ annotateNodes defs pfx e l2 := by
  induction l1 with
  | nil => simp [annotateNodes]
  | cons n ns ih => simp [annotateNodes, ih]

theorem annotateNode_text_noMatch (t : Term) (pfx u : List Char)
    (h : hasMatch t.term u = false) :
    annotateNode [t] pfx false (Node.text u) = Node.text u := by
  simp [annotateNode, annotateHtml, h]

theorem annotateNode_aNode (defs : List Term) (pfx2 pfx : List Char)
    (t : Term) :
    annotateNode defs pfx2 false (aNode pfx t) = aNode pfx t := by
  show Node.elem _ _ _ = _
  rw [aNode]
  have hex : nodeExcluded "a".data
      [("href".data, pfx ++ '#' :: t.slug),
       ("class".data, "definition-link".data),
       ("data-term".data, t.term),
       ("data-definition".data, t.preview)] = true := by
    simp [nodeExcluded]
  rw [hex]
  simp [annotateNodes_excl_id]

theorem chunksOf_after_hit (ps ps2 : List Piece)
    (hA : afterChunk ps = Piece.hit :: ps2) :
    chunksOf ps = litChunk ps :: chunksOf ps2 := by
  rw [chunksOf]
  congr 1
  split
  · next heq => rw [hA] at heq; exact List.noConfusion heq
  · next q ps3 heq =>
      rw [hA] at heq
      injection heq with h1 h2
      rw [h2]

/-- A second pass leaves the node list produced for a rendered
decomposition unchanged: text chunks re-match nothing, link elements
are excluded by the walker. -/
theorem piecesNodes_fixed (pfx : List Char) (t : Term) :
    ∀ (n : Nat) (ps : List Piece), ps.length ≤ n →
    (∀ ch ∈ chunksOf ps, hasMatch t.term ch = false) →
    annotateNodes [t] pfx false (piecesNodes pfx t ps) =
      piecesNodes pfx t ps := by
  intro n
  induction n with
  | zero =>
      intro ps hn hch
      have hps : ps = [] := List.length_eq_zero.mp (Nat.le_zero.mp hn)
      subst hps
      rw [piecesNodes]
      simp [annotateNodes, litChunk_nil, afterChunk_nil]
  | succ n ih =>
      intro ps hn hch
      have hhead : hasMatch t.term (litChunk ps) = false := by
        apply hch
        rw [chunksOf_eq_cons]
        exact List.mem_cons_self _ _
      have htext : annotateNodes [t] pfx false
          (if litChunk ps = [] then [] else [Node.text (litChunk ps)]) =
          (if litChunk ps = [] then [] else [Node.text (litChunk ps)]) := by
        rcases hL : litChunk ps with _ | ⟨c, u2⟩
        · simp [annotateNodes]
        · rw [if_neg (by simp)]
          rw [hL] at hhead
          simp [annotateNodes, annotateNode_text_noMatch t pfx _ hhead]
      rcases hA : afterChunk ps with _ | ⟨p, ps2⟩
      · rw [piecesNodes, dif_pos hA, List.append_nil, htext]
      · have hp : p = Piece.hit := afterChunk_head_hit ps p ps2 hA
        subst hp
        have hn2 : ps2.length ≤ n := by
          have h1 := afterChunk_length ps
          rw [hA] at h1
          simp only [List.length_cons] at h1
          omega
        have hch2 : ∀ ch ∈ chunksOf ps2, hasMatch t.term ch = false := by
          intro ch hc
          apply hch
          rw [chunksOf_after_hit ps ps2 hA]
          exact List.mem_cons_of_mem _ hc
        rw [piecesNodes, dif_neg (by rw [hA]; simp), hA, List.tail_cons]
        rw [annotateNodes_append, htext]
        congr 1
        show annotateNode [t] pfx false (aNode pfx t) ::
          annotateNodes [t] pfx false (piecesNodes pfx t ps2) = _
        rw [annotateNode_aNode, ih ps2 hn2 hch2]

theorem allWord_specials (l : List Char)
    (hw : ∀ c ∈ l, wordC c = true) :
    '$' ∉ l ∧ '"' ∉ l ∧ '&' ∉ l ∧ ∀ c ∈ l, c ≠ '<' ∧ c ≠ '&' := by
  refine ⟨fun hm => absurd (hw _ hm) (by decide),
          fun hm => absurd (hw _ hm) (by decide),
          fun hm => absurd (hw _ hm) (by decide),
          fun c hc => ⟨fun e => absurd (hw c hc) (by rw [e]; decide),
                       fun e => absurd (hw c hc) (by rw [e]; decide)⟩⟩

mutual

/-- Idempotence of the DOM pass on one node, for a single registered
term that is a plain word and template components free of the
characters the string pipeline treats specially. -/
theorem annotateNode_idem (t : Term) (pfx : List Char)
    (ht : t.term ≠ []) (hw : ∀ c ∈ t.term, wordC c = true)
    (hds : '$' ∉ t.slug) (hdp : '$' ∉ t.preview) (hdx : '$' ∉ pfx)
    (hqs : '"' ∉ t.slug) (hqx : '"' ∉ pfx)
    (has : '&' ∉ t.slug) (hax : '&' ∉ pfx) :
    ∀ (excl : Bool) (n : Node), niceNode n = true →
      annotateNode [t] pfx excl (annotateNode [t] pfx excl n) =
        annotateNode [t] pfx excl n
  | excl, Node.text s => by
      intro hnice
      cases excl with
      | true => simp [annotateNode]
      | false =>
          cases hm : hasMatch t.term s with
          | false =>
              have h1 := annotateNode_text_noMatch t pfx s hm
              rw [h1, h1]
          | true =>
              obtain ⟨hdt, hqt, hat, htc⟩ := allWord_specials t.term hw
              have hniceS : ∀ c ∈ s, c ≠ '<' ∧ c ≠ '&' := by
                intro c hc
                have h2 : s.all (fun c => !(c = '<' || c = '&')) = true := by
                  simpa [niceNode] using hnice
                have h3 := List.all_eq_true.mp h2 c hc
                simp only [Bool.not_eq_true', Bool.or_eq_false_iff,
                  decide_eq_false_iff_not] at h3
                exact h3
              have hsch : ∀ c, Piece.lit c ∈ wwPieces t.term s →
                  c ≠ '<' ∧ c ≠ '&' := by
                intro c hc
                have hcm : c ∈ s := by
                  have h4 := lit_mem_flattenP t.term c _ hc
                  rwa [flattenP_wwPieces] at h4
                exact hniceS c hcm
              have hhit : hitCount (wwPieces t.term s) ≠ 0 := by
                rw [hasMatch] at hm
                simpa using hm
              have hrepl : replaceTerm (linkTemplate pfx t) t.term s =
                  renderWrap (linkOpen pfx t) "</a>".data t.term
                    (wwPieces t.term s) := by
                rw [replaceTerm]
                exact renderHitsAux_wrap pfx t hdt hds hdp hdx
                  (wwPieces t.term s) []
              have hpf := parseFragment_renderWrap pfx t ht hqx hqs hax
                has hqt hat (wwPieces t.term s) hsch htc hhit
              have h1 : annotateNode [t] pfx false (Node.text s) =
                  Node.elem "span".data []
                    (piecesNodes pfx t (wwPieces t.term s)) := by
                simp only [annotateNode, annotateHtml, List.foldl_cons,
                  List.foldl_nil, Bool.false_or]
                simp only [hm, hrepl, hpf]
                simp
              have h2span : annotateNode [t] pfx false
                  (Node.elem "span".data []
                    (piecesNodes pfx t (wwPieces t.term s))) =
                  Node.elem "span".data []
                    (annotateNodes [t] pfx false
                      (piecesNodes pfx t (wwPieces t.term s))) := by
                simp [annotateNode, nodeExcluded, hasClass, attrVal]
              rw [h1, h2span,
                piecesNodes_fixed pfx t (wwPieces t.term s).length _
                  (le_refl _) (chunksNoHit t.term ht hw s)]
  | excl, Node.elem tag attrs cs => by
      intro hnice
      have hn2 : niceNodes cs = true := by simpa [niceNode] using hnice
      simp only [annotateNode]
      rw [annotateNodes_idem t pfx ht hw hds hdp hdx hqs hqx has hax
        (excl || nodeExcluded tag attrs) cs hn2]

theorem annotateNodes_idem (t : Term) (pfx : List Char)
    (ht : t.term ≠ []) (hw : ∀ c ∈ t.term, wordC c = true)
    (hds : '$' ∉ t.slug) (hdp : '$' ∉ t.preview) (hdx : '$' ∉ pfx)
    (hqs : '"' ∉ t.slug) (hqx : '"' ∉ pfx)
    (has : '&' ∉ t.slug) (hax : '&' ∉ pfx) :
    ∀ (e : Bool) (ns : List Node), niceNodes ns = true →
      annotateNodes [t] pfx e (annotateNodes [t] pfx e ns) =
        annotateNodes [t] pfx e ns
  | e, [] => by
      intro _
      simp [annotateNodes]
  | e, n :: ns => by
      intro hnice
      have h1 : niceNode n = true ∧ niceNodes ns = true := by
        simpa [niceNodes, Bool.and_eq_true] using hnice
      simp only [annotateNodes]
      rw [annotateNode_idem t pfx ht hw hds hdp hdx hqs hqx has hax
        e n h1.1,
        annotateNodes_idem t pfx ht hw hds hdp hdx hqs hqx has hax
        e ns h1.2]

end

/-- **C2** (corrected).  Idempotence does NOT hold in general (see
`c2_counterexample`: character references in the original text are
decoded when the rewritten markup is re-parsed through `innerHTML`, so
a second run sees new raw text and can create new links).  What does
hold, and what this theorem states: for a single-term registry whose
term is a plain word (nonempty, all `\w` characters) and whose slug,
preview and link path contain no dollar sign, no double quote and no
ampersand as applicable, running the pass twice over a content root
whose text nodes contain no raw `<` or `&` produces the same DOM as
running it once: the second run re-matches nothing inside the text
chunks the first run left and never enters the links it created. -/
theorem c2_theorem (t : Term) (pfx : List Char) (root : Node)
    (rA rH : Bool)
    (ht : t.term ≠ []) (hw : ∀ c ∈ t.term, wordC c = true)
    (hds : '$' ∉ t.slug) (hdp : '$' ∉ t.preview) (hdx : '$' ∉ pfx)
    (hqs : '"' ∉ t.slug) (hqx : '"' ∉ pfx)
    (has : '&' ∉ t.slug) (hax : '&' ∉ pfx)
    (hn : niceNode root = true) :
    linkDefinitions [t] pfx rA rH (linkDefinitions [t] pfx rA rH root) =
      linkDefinitions [t] pfx rA rH root := by
  cases hg : rA || rH with
  | true => simp [linkDefinitions, hg]
  | false =>
      simp only [linkDefinitions, hg, List.isEmpty_cons, if_false,
        Bool.false_eq_true]
      exact annotateNode_idem t pfx ht hw hds hdp hdx hqs hqx has hax
        false root hn

/-- Witness for `c2_theorem` at a concrete registry and content root:
the hypotheses hold and the pass is idempotent there. -/
theorem c2_witness :
    (aslanTerm.term ≠ [] ∧ (∀ c ∈ aslanTerm.term, wordC c = true) ∧
      niceNode (Node.elem "p".data []
        [Node.text "Aslan is on the move".data]) = true) ∧
    linkDefinitions [aslanTerm] "/glossary/".data false false
        (linkDefinitions [aslanTerm] "/glossary/".data false false
          (Node.elem "p".data [] [Node.text "Aslan is on the move".data])) =
      linkDefinitions [aslanTerm] "/glossary/".data false false
        (Node.elem "p".data [] [Node.text "Aslan is on the move".data]) :=
  ⟨⟨by decide, by decide, by decide⟩,
    c2_theorem aslanTerm "/glossary/".data
      (Node.elem "p".data [] [Node.text "Aslan is on the move".data])
      false false (by decide) (by decide) (by decide) (by decide)
      (by decide) (by decide) (by decide) (by decide) (by decide)
      (by decide)⟩
